import Mathlib

/-!
# Verification of the `player-id` SID player identifier

Shallow embedding of the Rust sources of `player-id` (BNDM pattern search,
signature scanning, SID file header parsing and signature-config parsing)
together with proofs about the embedded code.

Bytes are modelled as `UInt8`, byte buffers as `List UInt8`, machine words
(`usize`) as `Nat` with explicit reduction `% 2 ^ 64` where the Rust code can
overflow.  Fallible operations (Rust panics: out-of-bounds indexing and
`usize` underflow) are modelled with `Option`: `none` is a panic.
-/

namespace PlayerId

/-! ## src/utils/sid_file.rs -/

def MIN_SID_HEADER_SIZE : Nat := 0x76

def DATA_OFFSET_OFFSET : Nat := 0x06

def LOAD_ADDRESS_OFFSET : Nat := 0x08

/-- `is_sid_file` from src/utils/sid_file.rs. -/
def is_sid_file (source : List UInt8) : Bool :=
  decide (source.length ≥ MIN_SID_HEADER_SIZE) &&
    ((source.getD 0 0 == 0x52 || source.getD 0 0 == 0x50) &&
      (source.getD 1 0 == 0x53 && (source.getD 2 0 == 0x49 && source.getD 3 0 == 0x44)))

/-- `get_data_offset` from src/utils/sid_file.rs.  The big-endian 16-bit header
size sits at offset 6; indexing is total here because every access is guarded
by `source.length ≥ 0x76`. -/
def get_data_offset (source : List UInt8) : Nat :=
  if source.length ≥ MIN_SID_HEADER_SIZE then
    let header_size :=
      ((source.getD DATA_OFFSET_OFFSET 0).toNat <<< 8) + (source.getD (DATA_OFFSET_OFFSET + 1) 0).toNat
    if header_size ≥ MIN_SID_HEADER_SIZE ∧ header_size ≤ source.length then
      let has_load_address_in_data :=
        source.getD LOAD_ADDRESS_OFFSET 0 == 0 && source.getD (LOAD_ADDRESS_OFFSET + 1) 0 == 0
      if has_load_address_in_data then header_size + 2 else header_size
    else 0
  else 0

/-! ## src/player_id/bndm.rs — configuration -/

def MASKS_TABLE_SIZE : Nat := 256

def WORD_SIZE_IN_BITS : Nat := 64

/-- `BndmConfig` from src/player_id/bndm.rs.  The 256-entry `masks` array is
modelled as a function from the index byte to the mask word. -/
structure BndmConfig where
  masks : UInt8 → Nat
  wildcard : Option UInt8
  pattern : List UInt8

def get_pattern_length_within_cpu_word (search_pattern : List UInt8) : Nat :=
  min search_pattern.length WORD_SIZE_IN_BITS

/-- `calculate_wildcard_mask` from src/player_id/bndm.rs: the default mask has
a bit for every pattern position (within the CPU word) holding the wildcard
byte. -/
def calculate_wildcard_mask (search_pattern : List UInt8) (wildcard : Option UInt8) : Nat :=
  match wildcard with
  | none => 0
  | some w =>
    let len := get_pattern_length_within_cpu_word search_pattern
    if len > 0 then
      let bit_select := 1 <<< (len - 1)
      (List.range len).foldl
        (fun mask i => if search_pattern.getD i 0 = w then mask ||| (bit_select >>> i) else mask) 0
    else 0

/-- `generate_masks` from src/player_id/bndm.rs, as a function giving the
entry of the table at index byte `c`: the default mask, with the bit
`bit_select >>> i` added for every `i < len` with `pattern[i] = c`. -/
def generate_masks (search_pattern : List UInt8) (default_mask : Nat) : UInt8 → Nat :=
  fun c =>
    let len := get_pattern_length_within_cpu_word search_pattern
    if len > 0 then
      let bit_select := 1 <<< (len - 1)
      (List.range len).foldl
        (fun m i => if search_pattern.getD i 0 = c then m ||| (bit_select >>> i) else m) default_mask
    else default_mask

/-- `BndmConfig::new` from src/player_id/bndm.rs. -/
def BndmConfig.new (search_pattern : List UInt8) (wildcard : Option UInt8) : BndmConfig :=
  { masks := generate_masks search_pattern (calculate_wildcard_mask search_pattern wildcard)
    wildcard := wildcard
    pattern := search_pattern }

/-! ## src/player_id/signature.rs — wildcard selection -/

def CMD_WILDCARD : Nat := 0x100

def SIGNATURE_MAX_VALUE : Nat := 0x100

/-- The `while wildcard < SIGNATURE_MAX_VALUE && bytes_used[wildcard]` loop
inside `Signature::calculate_wildcard`. -/
def advanceWildcard (bytes_used : Nat → Bool) (wc : Nat) : Nat :=
  if wc < SIGNATURE_MAX_VALUE ∧ bytes_used wc = true then advanceWildcard bytes_used (wc + 1)
  else wc
termination_by SIGNATURE_MAX_VALUE - wc
decreasing_by omega

/-- The `for value in signature` loop of `Signature::calculate_wildcard`; the
`bytes_used` table (257 `bool`s in the Rust code) is a function. -/
def calculate_wildcard_aux : List Nat → (Nat → Bool) → Nat → Bool × Option UInt8
  | [], bytes_used, wc => (bytes_used CMD_WILDCARD, some (UInt8.ofNat wc))
  | v :: rest, bytes_used, wc =>
    let bu := fun k => if k = v then true else bytes_used k
    if wc = v then
      let wc' := advanceWildcard bu wc
      if wc' = SIGNATURE_MAX_VALUE then (true, none)
      else calculate_wildcard_aux rest bu wc'
    else calculate_wildcard_aux rest bu wc

/-- `Signature::calculate_wildcard` from src/player_id/signature.rs. -/
def calculate_wildcard (signature : List Nat) : Bool × Option UInt8 :=
  calculate_wildcard_aux signature (fun _ => false) 0

/-- `Signature::add_signature` from src/player_id/signature.rs.  Returns the
extended `bndm_configs` list.  `calculated_wildcard.unwrap()` is modelled with
`Option.getD _ 0`; it is only reached when `calculated_wildcard.isSome`
(otherwise the guard `!wildcard_used || calculated_wildcard.is_some()` fails
and the sub-pattern is dropped), so the default is never used. -/
def add_signature (signature : List Nat) (bndm_configs : List BndmConfig) : List BndmConfig :=
  let r := calculate_wildcard signature
  if ¬ r.1 = true ∨ r.2.isSome then
    let new_signature := signature.filterMap (fun v =>
      if v < 0x100 then some (UInt8.ofNat v)
      else if v = CMD_WILDCARD then some (r.2.getD 0)
      else none)
    bndm_configs ++ [BndmConfig.new new_signature r.2]
  else bndm_configs

/-! ## src/player_id/bndm.rs — the search functions

Rust panics (out-of-bounds indexing, `usize` subtraction underflow, slicing
past the end) are modelled by `Option`: `none` is a panic. -/

/-- Checked read of `source[n - 1]` where `n - 1` is a Rust `usize`
subtraction: underflow (`n = 0`) or an out-of-bounds index is a panic. -/
def sub1Read (source : List UInt8) (n : Nat) : Option UInt8 :=
  if n = 0 then none else source.get? (n - 1)

/-- `find_remaining` from src/player_id/bndm.rs with checked indexing;
iterates in order and short-circuits like `Iterator::all`. -/
def find_remaining (source : List UInt8) (search_pattern : List UInt8)
    (wildcard : Option UInt8) : Option Bool :=
  find_remaining_go source wildcard 0 search_pattern
where
  find_remaining_go (source : List UInt8) (wildcard : Option UInt8) :
      Nat → List UInt8 → Option Bool
    | _, [] => some true
    | index, pattern_byte :: rest =>
      match source.get? index with
      | none => none
      | some sb =>
        match wildcard with
        | some w =>
          if sb = pattern_byte ∨ pattern_byte = w then
            find_remaining_go source wildcard (index + 1) rest
          else some false
        | none =>
          if sb = pattern_byte then find_remaining_go source wildcard (index + 1) rest
          else some false

/-- The inner `while d != 0` loop of `find_small_pattern`.  `some (true, last)`
models `return Some(i)`, `some (false, last)` a normal exit with the final
value of `last`, and `none` a panic (`j -= 1` underflow at `j = 0`, or a bad
read of `source[i + j - 1]`). -/
def find_small_loop (masks : UInt8 → Nat) (df : Nat) (source : List UInt8) (i : Nat) :
    Nat → Nat → Nat → Option (Bool × Nat)
  | 0, last, d => if d = 0 then some (false, last) else none
  | j' + 1, last, d =>
    if d = 0 then some (false, last)
    else
      if d &&& df ≠ 0 then
        if j' = 0 then some (true, last)
        else
          match sub1Read source (i + j') with
          | none => none
          | some b => find_small_loop masks df source i j' j' (((d <<< 1) % 2 ^ 64) &&& masks b)
      else
        match sub1Read source (i + j') with
        | none => none
        | some b => find_small_loop masks df source i j' last (((d <<< 1) % 2 ^ 64) &&& masks b)

/-- The outer `while i < end` loop of `find_small_pattern`, with fuel for the
termination argument (the window always advances by `last ≥ 1`, proved below,
so the fuel passed by `find_small_pattern` is never exhausted). -/
def find_small_outer (masks : UInt8 → Nat) (df len endd : Nat) (source : List UInt8) :
    Nat → Nat → Option (Option Nat)
  | 0, _ => none
  | fuel + 1, i =>
    if i < endd then
      match source.get? (i + len) with
      | none => none
      | some b0 =>
        match sub1Read source (i + len) with
        | none => none
        | some b1 =>
          match find_small_loop masks df source i len len
              (((masks b0 <<< 1) % 2 ^ 64) &&& masks b1) with
          | none => none
          | some (true, _) => some (some i)
          | some (false, last) => find_small_outer masks df len endd source fuel (i + last)
    else some none

/-- `find_small_pattern` from src/player_id/bndm.rs.  The Rust subtractions
`pattern.len() - 1` and `source.len() - len` cannot underflow at the call
site (`2 ≤ pattern.len() ≤ source.len()` there). -/
def find_small_pattern (source : List UInt8) (config : BndmConfig) : Option (Option Nat) :=
  let len := config.pattern.length - 1
  let endd := source.length - len
  let df := 1 <<< len
  find_small_outer config.masks df len endd source (endd + 1) 0

/-- The inner `while d != 0` loop of `find_large_pattern`.  When the prefix
match fires at `j = 0`, the remainder of the pattern is compared with
`find_remaining` on the slices `source[i + 64..]` and `pattern[64..]`
(slicing out of range is a panic).  A failed remainder check re-runs the
window with `j += 1`, so the loop is not structurally decreasing in `j` and
carries fuel; the caller provides enough (proved below). -/
def find_large_loop (masks : UInt8 → Nat) (df : Nat) (source pattern : List UInt8)
    (wildcard : Option UInt8) (i : Nat) :
    Nat → Nat → Nat → Nat → Option (Bool × Nat)
  | 0, _, _, _ => none
  | _ + 1, 0, last, d => if d = 0 then some (false, last) else none
  | fuel + 1, j' + 1, last, d =>
    if d = 0 then some (false, last)
    else
      if d &&& df ≠ 0 then
        if j' = 0 then
          if i + WORD_SIZE_IN_BITS ≤ source.length ∧ WORD_SIZE_IN_BITS ≤ pattern.length then
            match find_remaining (source.drop (i + WORD_SIZE_IN_BITS))
                (pattern.drop WORD_SIZE_IN_BITS) wildcard with
            | none => none
            | some true => some (true, last)
            | some false =>
              match sub1Read source (i + 1) with
              | none => none
              | some b =>
                find_large_loop masks df source pattern wildcard i fuel 1 1
                  (((d <<< 1) % 2 ^ 64) &&& masks b)
          else none
        else
          match sub1Read source (i + j') with
          | none => none
          | some b =>
            find_large_loop masks df source pattern wildcard i fuel j' j'
              (((d <<< 1) % 2 ^ 64) &&& masks b)
      else
        match sub1Read source (i + j') with
        | none => none
        | some b =>
          find_large_loop masks df source pattern wildcard i fuel j' last
            (((d <<< 1) % 2 ^ 64) &&& masks b)

/-- The outer `while i < end` loop of `find_large_pattern`, with fuel. -/
def find_large_outer (masks : UInt8 → Nat) (df len endd : Nat) (source pattern : List UInt8)
    (wildcard : Option UInt8) : Nat → Nat → Option (Option Nat)
  | 0, _ => none
  | fuel + 1, i =>
    if i < endd then
      match source.get? (i + len) with
      | none => none
      | some b0 =>
        match sub1Read source (i + len) with
        | none => none
        | some b1 =>
          match find_large_loop masks df source pattern wildcard i (2 * WORD_SIZE_IN_BITS + 4)
              len len (((masks b0 <<< 1) % 2 ^ 64) &&& masks b1) with
          | none => none
          | some (true, _) => some (some i)
          | some (false, last) =>
            find_large_outer masks df len endd source pattern wildcard fuel (i + last)
    else some none

/-- `find_large_pattern` from src/player_id/bndm.rs. -/
def find_large_pattern (source : List UInt8) (config : BndmConfig) : Option (Option Nat) :=
  let len := WORD_SIZE_IN_BITS - 1
  let endd := source.length - (config.pattern.length - 1)
  let df := 1 <<< len
  find_large_outer config.masks df len endd source config.pattern config.wildcard (endd + 1) 0

/-- `find_pattern` from src/player_id/bndm.rs.  The length-1 case is
`source.iter().position(|&x| x == config.pattern[0])` — an exact scan that
ignores the wildcard. -/
def find_pattern (source : List UInt8) (config : BndmConfig) : Option (Option Nat) :=
  if config.pattern.length = 0 then some none
  else if config.pattern.length = 1 then
    some (List.findIdx? (fun x => x == config.pattern.getD 0 0) source)
  else if config.pattern.length > source.length then some none
  else if config.pattern.length > WORD_SIZE_IN_BITS then find_large_pattern source config
  else find_small_pattern source config

/-! ## src/player_id/signature.rs — scanning -/

structure SignatureConfig where
  bndm_configs : List BndmConfig
  signature_name : String

structure SignatureMatch where
  signature_name : String
  indexes : List Nat
  deriving DecidableEq

instance : Inhabited BndmConfig := ⟨⟨fun _ => 0, none, []⟩⟩

/-- The `for config in &signature.bndm_configs` loop of
`Signature::find_signatures`.  `none` is a panic (the slice
`&source[last_index..]` with `last_index > source.len()`, or a panic inside
`find_pattern`), `some none` is `index_found = false`, and `some (some l)`
the completed `indexes` list. -/
def scanConfigs (source : List UInt8) :
    List BndmConfig → Nat → List Nat → Option (Option (List Nat))
  | [], _, indexes => some (some indexes)
  | config :: rest, last_index, indexes =>
    if last_index ≤ source.length then
      match find_pattern (source.drop last_index) config with
      | none => none
      | some none => some none
      | some (some index) =>
        scanConfigs source rest (last_index + index + config.pattern.length)
          (indexes ++ [last_index + index])
    else none

/-- Helper for `dedupBy`: drops each element equal (under `p`) to the last
kept element, as `Vec::dedup_by` does. -/
def dedupByAux (p : α → α → Bool) : α → List α → List α
  | _, [] => []
  | kept, y :: ys => if p y kept then dedupByAux p kept ys else y :: dedupByAux p y ys

/-- `Vec::dedup_by`: removes all but the first of consecutive elements in the
same bucket. -/
def dedupBy (p : α → α → Bool) : List α → List α
  | [] => []
  | x :: xs => x :: dedupByAux p x xs

/-- The `for signature in signatures` loop of `Signature::find_signatures`,
including the `if !scan_for_multiple { break }` early exit. -/
def find_signatures_aux (source : List UInt8) (start_offset : Nat) (scan_for_multiple : Bool) :
    List SignatureConfig → Option (List SignatureMatch)
  | [] => some []
  | signature :: rest =>
    match scanConfigs source signature.bndm_configs start_offset [] with
    | none => none
    | some none => find_signatures_aux source start_offset scan_for_multiple rest
    | some (some indexes) =>
      if scan_for_multiple then
        match find_signatures_aux source start_offset scan_for_multiple rest with
        | none => none
        | some ms => some ({ signature_name := signature.signature_name, indexes := indexes } :: ms)
      else some [{ signature_name := signature.signature_name, indexes := indexes }]

/-- `Signature::find_signatures` from src/player_id/signature.rs. -/
def find_signatures (source : List UInt8) (start_offset : Nat)
    (signatures : List SignatureConfig) (scan_for_multiple : Bool) :
    Option (List SignatureMatch) :=
  match find_signatures_aux source start_offset scan_for_multiple signatures with
  | none => none
  | some ms => some (dedupBy (fun a b => a.signature_name == b.signature_name) ms)

/-! ## src/player_id.rs — the file-scanning pipeline after I/O -/

/-- `PlayerId::get_data_offset` from src/player_id.rs. -/
def player_get_data_offset (filename : String) (data : List UInt8) : Nat :=
  if is_sid_file data then get_data_offset data
  else if filename.endsWith ".prg" then 2 else 0

/-- `PlayerId::find_players_in_file` from src/player_id.rs, once the file has
been read into `data`. -/
def find_players_in_data (filename : String) (data : List UInt8)
    (signature_ids : List SignatureConfig) (scan_for_multiple : Bool) :
    Option (List SignatureMatch) :=
  find_signatures data (player_get_data_offset filename data) signature_ids scan_for_multiple

/-! ## src/player_id/signature.rs — parsing a signature value line -/

def hexDigitVal (c : Char) : Option Nat :=
  if '0' ≤ c ∧ c ≤ '9' then some (c.toNat - '0'.toNat)
  else if 'a' ≤ c ∧ c ≤ 'f' then some (c.toNat - 'a'.toNat + 10)
  else if 'A' ≤ c ∧ c ≤ 'F' then some (c.toNat - 'A'.toNat + 10)
  else none

def parseHexGo : List Char → Nat → Option Nat
  | [], acc => some acc
  | c :: cs, acc =>
    match hexDigitVal c with
    | some d => parseHexGo cs (acc * 16 + d)
    | none => none

def parseHex : List Char → Option Nat
  | [] => none
  | cs => parseHexGo cs 0

/-- `Signature::convert_hex_to_bin`:
`u16::from_str_radix(digit_string, 16).unwrap_or(0)` — an optional leading
`+`, then at least one hex digit, value below 2^16; anything else is a parse
error and yields 0. -/
def convert_hex_to_bin (digit_string : String) : Nat :=
  let cs := match digit_string.toList with
    | '+' :: rest => rest
    | cs => cs
  match parseHex cs with
  | some v => if v < 0x10000 then v else 0
  | none => 0

def isAsciiWhitespace (c : Char) : Bool :=
  c = ' ' || c = '\t' || c = '\n' || c = '\x0C' || c = '\r'

/-- `str::split_ascii_whitespace`: split on ASCII whitespace, dropping empty
tokens.  Implemented structurally over the character list (Lean's own
`String.split` uses well-founded recursion, which does not reduce). -/
def splitAsciiWhitespaceAux : List Char → List Char → List String
  | [], [] => []
  | [], acc => [String.mk acc.reverse]
  | c :: cs, acc =>
    if isAsciiWhitespace c then
      match acc with
      | [] => splitAsciiWhitespaceAux cs []
      | _ :: _ => String.mk acc.reverse :: splitAsciiWhitespaceAux cs []
    else splitAsciiWhitespaceAux cs (c :: acc)

def splitAsciiWhitespace (s : String) : List String :=
  splitAsciiWhitespaceAux s.data []

/-- `u8::to_ascii_uppercase`, at the character level (only `a`–`z` change). -/
def toAsciiUpperChar (c : Char) : Char :=
  if 'a' ≤ c ∧ c ≤ 'z' then Char.ofNat (c.toNat - 0x20) else c

/-- `str::to_ascii_uppercase`. -/
def toAsciiUpperString (s : String) : String :=
  String.mk (s.data.map toAsciiUpperChar)

/-- The `for word in ...` loop of `Signature::process_signature_value`:
words shorter than two bytes are skipped, `??` pushes `CMD_WILDCARD`,
`AND`/`&&`/`END` close the current sub-pattern, and anything else is parsed
as hex from its first two characters. -/
def process_words : List String → List Nat → List BndmConfig → List Nat × List BndmConfig
  | [], signature, bndm_configs => (signature, bndm_configs)
  | word :: rest, signature, bndm_configs =>
    if word.utf8ByteSize ≥ 2 then
      if word = "??" then process_words rest (signature ++ [CMD_WILDCARD]) bndm_configs
      else if word = "AND" ∨ word = "&&" ∨ word = "END" then
        process_words rest [] (add_signature signature bndm_configs)
      else
        process_words rest
          (signature ++ [convert_hex_to_bin (String.mk (word.data.take 2))]) bndm_configs
    else process_words rest signature bndm_configs

/-- `Signature::process_signature_value` from src/player_id/signature.rs. -/
def process_signature_value (signature_name : String) (signature_text : String) :
    SignatureConfig :=
  let r := process_words (splitAsciiWhitespace (toAsciiUpperString signature_text)) [] []
  let bndm_configs := if r.1.isEmpty then r.2 else add_signature r.1 r.2
  { bndm_configs := bndm_configs, signature_name := signature_name }

def eqIgnoreAsciiCase (a b : String) : Bool :=
  toAsciiUpperString a == toAsciiUpperString b

/-- `Signature::process_signature_line` from src/player_id/signature.rs: the
parsed signature is pushed whenever no name filter is set or the filter
matches, regardless of whether any sub-pattern survived parsing. -/
def process_signature_line (signature_name_to_filter : Option String)
    (signatures : List SignatureConfig) (signature_name : String) (signature_text : String) :
    List SignatureConfig :=
  let signature := process_signature_value signature_name signature_text
  if signature_name_to_filter.isNone ||
      eqIgnoreAsciiCase (signature_name_to_filter.getD "") signature_name then
    signatures ++ [signature]
  else signatures

/-! ## Specification-side definitions (used to state the claims) -/

/-- One scan step per sub-pattern: the reported index is the running offset
plus the position found by `find_pattern` in the tail of `source` starting at
that offset, and the offset then advances past the found sub-pattern. -/
def ScanChain (source : List UInt8) : Nat → List BndmConfig → List Nat → Prop
  | _, [], [] => True
  | last_index, config :: rest, x :: xs =>
    (∃ r, find_pattern (source.drop last_index) config = some (some r) ∧ x = last_index + r) ∧
      ScanChain source (x + config.pattern.length) rest xs
  | _, _, _ => False

/-- The per-byte matching relation of the BNDM search: pattern byte `a`
matches source byte `c` when they are equal or `a` is the wildcard. -/
def byteMatches (wildcard : Option UInt8) (a c : UInt8) : Bool :=
  c == a || wildcard == some a

/-- The matching relation of the BNDM search as the code implements it: byte
`k` of the pattern matches byte `i + k` of the source if they are equal or if
the pattern byte is the wildcard — except that a length-1 pattern is compared
exactly (its branch in `find_pattern` ignores the wildcard). -/
def matchesAtB (pattern : List UInt8) (wildcard : Option UInt8) (source : List UInt8)
    (i : Nat) : Bool :=
  decide (i + pattern.length ≤ source.length) &&
    (List.range pattern.length).all (fun k =>
      source.getD (i + k) 0 == pattern.getD k 0 ||
        (decide (2 ≤ pattern.length) && wildcard == some (pattern.getD k 0)))

/-- Linear scan for the first matching index, beginning at `st`. -/
def firstMatchAux (pattern : List UInt8) (wildcard : Option UInt8) (source : List UInt8) :
    Nat → Nat → Option Nat
  | 0, _ => none
  | fuel + 1, st =>
    if matchesAtB pattern wildcard source st then some st
    else firstMatchAux pattern wildcard source fuel (st + 1)

/-- The first index at which the pattern matches (code semantics). -/
def firstMatch (pattern : List UInt8) (wildcard : Option UInt8) (source : List UInt8) :
    Option Nat :=
  firstMatchAux pattern wildcard source source.length 0

/-- Partial window match: every window offset `m ∈ [lo, len]` of the window
based at `i` matches the pattern shifted right by `u` (pattern index
`m - u`). -/
def PartMatch (p : List UInt8) (w : Option UInt8) (s : List UInt8)
    (i u lo len : Nat) : Prop :=
  ∀ m, lo ≤ m → m ≤ len → byteMatches w (p.getD (m - u) 0) (s.getD (i + m) 0) = true

/-- The BNDM bit-state invariant at loop counter `j`: bit `q` of `d` is set
exactly when the processed window suffix (offsets `j - 1 .. len`) matches the
pattern at shift `q - (len + 1 - j)`, for `q` between `len + 1 - j` and
`len`. -/
def DInv (p : List UInt8) (w : Option UInt8) (s : List UInt8) (i len j d : Nat) : Prop :=
  ∀ q, d.testBit q = true ↔
    (len + 1 - j ≤ q ∧ q ≤ len ∧ PartMatch p w s i (q - (len + 1 - j)) (j - 1) len)

/-- The tail comparison performed by `find_remaining` for patterns longer
than the CPU word. -/
def RemMatch (p : List UInt8) (w : Option UInt8) (s : List UInt8) (i : Nat) : Prop :=
  ∀ k, 64 ≤ k → k < p.length → byteMatches w (p.getD k 0) (s.getD (i + k) 0) = true

instance RemMatch.dec (p : List UInt8) (w : Option UInt8) (s : List UInt8) (i : Nat) :
    Decidable (RemMatch p w s i) :=
  decidable_of_iff
    (∀ k, k < p.length → (64 ≤ k → byteMatches w (p.getD k 0) (s.getD (i + k) 0) = true))
    (by
      constructor
      · intro h k h1 h2
        exact h k h2 h1
      · intro h k h1 h2
        exact h k h2 h1)

/-- The result `find_pattern` is proved to compute: `none` for an empty
pattern, otherwise the first matching index. -/
def expectedFind (pattern : List UInt8) (wildcard : Option UInt8) (source : List UInt8) :
    Option Nat :=
  if pattern.length = 0 then none else firstMatch pattern wildcard source

/-- The matching relation claimed by the spec (C1): the wildcard matches for
every pattern length, including 1. -/
def claimMatchesAtB (pattern : List UInt8) (wildcard : Option UInt8) (source : List UInt8)
    (i : Nat) : Bool :=
  decide (i + pattern.length ≤ source.length) &&
    (List.range pattern.length).all (fun k =>
      source.getD (i + k) 0 == pattern.getD k 0 || wildcard == some (pattern.getD k 0))

/-- The first matching index under the spec's (C1) matching relation. -/
def claimFirstMatch (pattern : List UInt8) (wildcard : Option UInt8) (source : List UInt8) :
    Option Nat :=
  (List.range source.length).find? (fun i => claimMatchesAtB pattern wildcard source i)

end PlayerId

/-! Claim theorems for the SID header. -/

open PlayerId

/-- C5: for a buffer recognised as a SID file (magic "RSID"/"PSID", length
≥ 0x76), if the big-endian header size at offset 6 lies in
`[0x76, source.length]` then `get_data_offset` returns it, increased by 2
exactly when the bytes at offsets 8 and 9 are both zero; otherwise it
returns 0. -/
theorem C5_get_data_offset (source : List UInt8)
    (hsid : is_sid_file source = true) :
    (let hs := ((source.getD 6 0).toNat <<< 8) + (source.getD 7 0).toNat
     if 0x76 ≤ hs ∧ hs ≤ source.length then
       get_data_offset source =
         (if source.getD 8 0 = 0 ∧ source.getD 9 0 = 0 then hs + 2 else hs)
     else get_data_offset source = 0) := by
  have hlen : source.length ≥ 0x76 := by
    simp only [is_sid_file, Bool.and_eq_true, decide_eq_true_eq] at hsid
    exact hsid.1
  simp only []
  split
  · next hrange =>
    simp only [get_data_offset, DATA_OFFSET_OFFSET, LOAD_ADDRESS_OFFSET, MIN_SID_HEADER_SIZE]
    rw [if_pos hlen, if_pos ⟨hrange.1, hrange.2⟩]
    split
    · next hz =>
      simp only [Bool.and_eq_true, beq_iff_eq] at hz
      rw [if_pos hz]
    · next hz =>
      simp only [Bool.and_eq_true, beq_iff_eq] at hz
      rw [if_neg hz]
  · next hrange =>
    simp only [get_data_offset, DATA_OFFSET_OFFSET, LOAD_ADDRESS_OFFSET, MIN_SID_HEADER_SIZE]
    rw [if_pos hlen, if_neg hrange]

/-! ### Lemmas about `calculate_wildcard` -/

namespace PlayerId

theorem advanceWildcard_spec (u : Nat → Bool) :
    ∀ n wc, SIGNATURE_MAX_VALUE - wc ≤ n → wc ≤ SIGNATURE_MAX_VALUE →
      wc ≤ advanceWildcard u wc ∧ advanceWildcard u wc ≤ SIGNATURE_MAX_VALUE ∧
      (∀ j, wc ≤ j → j < advanceWildcard u wc → u j = true) ∧
      (advanceWildcard u wc < SIGNATURE_MAX_VALUE → u (advanceWildcard u wc) = false) := by
  intro n
  induction n with
  | zero =>
    intro wc hn hle
    have hwc : wc = SIGNATURE_MAX_VALUE := by omega
    rw [advanceWildcard]
    rw [if_neg (by omega)]
    exact ⟨le_refl _, by omega, fun j h1 h2 => by omega, fun h => by omega⟩
  | succ n ih =>
    intro wc hn hle
    rw [advanceWildcard]
    by_cases hguard : wc < SIGNATURE_MAX_VALUE ∧ u wc = true
    · rw [if_pos hguard]
      obtain ⟨ih1, ih2, ih3, ih4⟩ := ih (wc + 1) (by omega) (by omega)
      refine ⟨by omega, ih2, ?_, ih4⟩
      intro j hj1 hj2
      rcases Nat.eq_or_lt_of_le hj1 with h | h
      · exact h ▸ hguard.2
      · exact ih3 j h hj2
    · rw [if_neg hguard]
      refine ⟨le_refl _, hle, fun j h1 h2 => by omega, fun h => ?_⟩
      by_cases hu : u wc = true
      · exact absurd ⟨h, hu⟩ hguard
      · simpa using hu

theorem calculate_wildcard_aux_covered :
    ∀ (rest : List Nat) (used : Nat → Bool) (wc : Nat),
      (∀ k, k < wc → used k = true) → used wc = false → wc < SIGNATURE_MAX_VALUE →
      (∀ b, b < SIGNATURE_MAX_VALUE → used b = true ∨ b ∈ rest) →
      calculate_wildcard_aux rest used wc = (true, none) := by
  intro rest
  induction rest with
  | nil =>
    intro used wc h1 h2 h3 hcov
    rcases hcov wc h3 with h | h
    · rw [h2] at h; exact absurd h (by simp)
    · exact absurd h (by simp)
  | cons v vs ih =>
    intro used wc h1 h2 h3 hcov
    simp only [calculate_wildcard_aux]
    by_cases hv : wc = v
    · rw [if_pos hv]
      set bu := fun k => if k = v then true else used k with hbu
      obtain ⟨a1, a2, a3, a4⟩ :=
        advanceWildcard_spec bu (SIGNATURE_MAX_VALUE - wc) wc (le_refl _) (by omega)
      by_cases hend : advanceWildcard bu wc = SIGNATURE_MAX_VALUE
      · rw [if_pos hend]
      · rw [if_neg hend]
        have hlt : advanceWildcard bu wc < SIGNATURE_MAX_VALUE := by omega
        apply ih
        · intro k hk
          by_cases hkwc : k < wc
          · have := h1 k hkwc
            simp only [hbu]
            split <;> simp [this]
          · exact a3 k (by omega) hk
        · exact a4 hlt
        · exact hlt
        · intro b hb
          rcases hcov b hb with h | h
          · left; simp only [hbu]; split <;> simp [h]
          · rcases List.mem_cons.mp h with h | h
            · left; simp [hbu, h]
            · right; exact h
    · rw [if_neg hv]
      apply ih
      · intro k hk
        have := h1 k hk
        split <;> simp [this]
      · show (if wc = v then true else used wc) = false
        rw [if_neg hv]
        exact h2
      · exact h3
      · intro b hb
        rcases hcov b hb with h | h
        · left; split <;> simp [h]
        · rcases List.mem_cons.mp h with h | h
          · left; simp [h]
          · right; exact h

theorem calculate_wildcard_aux_omitted :
    ∀ (rest : List Nat) (used : Nat → Bool) (wc b0 : Nat),
      (∀ k, k < wc → used k = true) → used wc = false →
      b0 < SIGNATURE_MAX_VALUE → used b0 = false → b0 ∉ rest →
      ∃ W, W < SIGNATURE_MAX_VALUE ∧
        calculate_wildcard_aux rest used wc =
          ((used CMD_WILDCARD || decide (CMD_WILDCARD ∈ rest)), some (UInt8.ofNat W)) ∧
        used W = false ∧ W ∉ rest ∧
        (∀ k, k < W → used k = true ∨ k ∈ rest) := by
  intro rest
  induction rest with
  | nil =>
    intro used wc b0 h1 h2 hb0 hub0 hnm
    refine ⟨wc, ?_, ?_, h2, by simp, ?_⟩
    · by_cases h : wc ≤ b0
      · omega
      · have := h1 b0 (by omega); rw [hub0] at this; exact absurd this (by simp)
    · simp [calculate_wildcard_aux]
    · intro k hk
      exact Or.inl (h1 k hk)
  | cons v vs ih =>
    intro used wc b0 h1 h2 hb0 hub0 hnm
    have hb0v : b0 ≠ v := fun h => hnm (h ▸ List.mem_cons_self v vs)
    have hb0vs : b0 ∉ vs := fun h => hnm (List.mem_cons_of_mem v h)
    simp only [calculate_wildcard_aux]
    by_cases hv : wc = v
    · rw [if_pos hv]
      set bu := fun k => if k = v then true else used k with hbu
      have hbub0 : bu b0 = false := by simp only [hbu]; rw [if_neg hb0v]; exact hub0
      have hwcle : wc ≤ SIGNATURE_MAX_VALUE := by
        by_cases h : wc ≤ b0
        · omega
        · have := h1 b0 (by omega); rw [hub0] at this; exact absurd this (by simp)
      obtain ⟨a1, a2, a3, a4⟩ :=
        advanceWildcard_spec bu (SIGNATURE_MAX_VALUE - wc) wc (le_refl _) hwcle
      have hend : advanceWildcard bu wc ≠ SIGNATURE_MAX_VALUE := by
        intro h
        by_cases hle : wc ≤ b0
        · have := a3 b0 hle (by omega)
          rw [hbub0] at this; exact absurd this (by simp)
        · have := h1 b0 (by omega); rw [hub0] at this; exact absurd this (by simp)
      rw [if_neg hend]
      have hlt : advanceWildcard bu wc < SIGNATURE_MAX_VALUE := by omega
      obtain ⟨W, w1, w2, w3, w4, w5⟩ := ih bu (advanceWildcard bu wc) b0
        (fun k hk => by
          by_cases hkwc : k < wc
          · have := h1 k hkwc
            simp only [hbu]; split <;> simp [this]
          · exact a3 k (by omega) hk)
        (a4 hlt) hb0 hbub0 hb0vs
      refine ⟨W, w1, ?_, ?_, ?_, ?_⟩
      · rw [w2]
        congr 1
        simp only [hbu, List.mem_cons]
        by_cases hcv : CMD_WILDCARD = v
        · simp [hcv]
        · rw [if_neg hcv]
          simp [hcv]
      · simp only [hbu] at w3
        by_cases hWv : W = v
        · rw [if_pos hWv] at w3; exact absurd w3 (by simp)
        · rw [if_neg hWv] at w3; exact w3
      · intro h
        rcases List.mem_cons.mp h with h | h
        · simp only [hbu] at w3; rw [if_pos h] at w3; exact absurd w3 (by simp)
        · exact w4 h
      · intro k hk
        rcases w5 k hk with h | h
        · simp only [hbu] at h
          by_cases hkv : k = v
          · right; exact hkv ▸ List.mem_cons_self v vs
          · rw [if_neg hkv] at h; exact Or.inl h
        · right; exact List.mem_cons_of_mem v h
    · rw [if_neg hv]
      set bu := fun k => if k = v then true else used k with hbu
      obtain ⟨W, w1, w2, w3, w4, w5⟩ := ih bu wc b0
        (fun k hk => by
          have := h1 k hk
          simp only [hbu]; split <;> simp [this])
        (by simp only [hbu]; rw [if_neg hv]; exact h2)
        hb0
        (by simp only [hbu]; rw [if_neg hb0v]; exact hub0)
        hb0vs
      refine ⟨W, w1, ?_, ?_, ?_, ?_⟩
      · rw [w2]
        congr 1
        simp only [hbu, List.mem_cons]
        by_cases hcv : CMD_WILDCARD = v
        · simp [hcv]
        · rw [if_neg hcv]
          simp [hcv]
      · simp only [hbu] at w3
        by_cases hWv : W = v
        · rw [if_pos hWv] at w3; exact absurd w3 (by simp)
        · rw [if_neg hWv] at w3; exact w3
      · intro h
        rcases List.mem_cons.mp h with h | h
        · simp only [hbu] at w3; rw [if_pos h] at w3; exact absurd w3 (by simp)
        · exact w4 h
      · intro k hk
        rcases w5 k hk with h | h
        · simp only [hbu] at h
          by_cases hkv : k = v
          · right; exact hkv ▸ List.mem_cons_self v vs
          · rw [if_neg hkv] at h; exact Or.inl h
        · right; exact List.mem_cons_of_mem v h

/-- A sub-pattern whose literal values cover every byte makes
`calculate_wildcard` report "wildcard used, none available". -/
theorem calculate_wildcard_covered (sig : List Nat)
    (hcov : ∀ b, b < 0x100 → b ∈ sig) :
    calculate_wildcard sig = (true, none) := by
  apply calculate_wildcard_aux_covered sig (fun _ => false) 0
  · intro k hk; omega
  · rfl
  · simp [SIGNATURE_MAX_VALUE]
  · intro b hb; exact Or.inr (hcov b hb)

/-- A sub-pattern omitting some byte value gets the smallest omitted value as
its wildcard. -/
theorem calculate_wildcard_omitted (sig : List Nat) (b0 : Nat)
    (hb : b0 < 0x100) (hmem : b0 ∉ sig) :
    ∃ W, W < 0x100 ∧
      calculate_wildcard sig = (decide (CMD_WILDCARD ∈ sig), some (UInt8.ofNat W)) ∧
      W ∉ sig ∧ (∀ k, k < W → k ∈ sig) := by
  obtain ⟨W, w1, w2, w3, w4, w5⟩ :=
    calculate_wildcard_aux_omitted sig (fun _ => false) 0 b0
      (fun k hk => by omega) rfl hb rfl hmem
  refine ⟨W, w1, ?_, w4, ?_⟩
  · rw [calculate_wildcard, w2]; simp
  · intro k hk
    rcases w5 k hk with h | h
    · exact absurd h (by simp)
    · exact h

end PlayerId

/-- C3 counterexample: the sub-pattern `00 01 ... FF` (all 256 byte values,
no `??` token) is dropped by `add_signature`, while the claim says that with
no `??` it is accepted with wildcard = none. -/
theorem C3_counterexample :
    CMD_WILDCARD ∉ List.range 0x100 ∧ add_signature (List.range 0x100) [] = [] := by
  constructor
  · simp [CMD_WILDCARD]
  · have h := calculate_wildcard_covered (List.range 0x100) (fun b hb => List.mem_range.mpr hb)
    simp [add_signature, h]

/-- C3 (amended): a sub-pattern whose literal byte values cover all 256
values 0x00..=0xFF is dropped (not added to the signature), whether or not
the `??` token was used. -/
theorem C3_all_bytes_covered_dropped (sig : List Nat) (cfgs : List BndmConfig)
    (hcov : ∀ b, b < 0x100 → b ∈ sig) :
    add_signature sig cfgs = cfgs := by
  have h := calculate_wildcard_covered sig hcov
  simp [add_signature, h]

/-- Witness for C3 (amended): a sub-pattern made of `??` followed by all 256
byte values is dropped. -/
theorem C3_all_bytes_covered_dropped_witness :
    add_signature (0x100 :: List.range 0x100) [] = [] :=
  C3_all_bytes_covered_dropped _ _ (fun b hb => List.mem_cons_of_mem _ (List.mem_range.mpr hb))

/-- C6: whenever the literal byte values of a sub-pattern omit at least one
value in 0x00..=0xFF, the selected wildcard is the smallest omitted value,
the sub-pattern is accepted with every `??` replaced by that byte, and the
stored wildcard byte differs from every non-wildcard literal. -/
theorem C6_wildcard_smallest_omitted (sig : List Nat) (cfgs : List BndmConfig)
    (hvals : ∀ v ∈ sig, v ≤ CMD_WILDCARD)
    (homit : ∃ b, b < 0x100 ∧ b ∉ sig) :
    ∃ W, W < 0x100 ∧ (∀ k, k < W → k ∈ sig) ∧ W ∉ sig ∧
      calculate_wildcard sig = (decide (CMD_WILDCARD ∈ sig), some (UInt8.ofNat W)) ∧
      add_signature sig cfgs = cfgs ++ [BndmConfig.new
        (sig.filterMap (fun v => if v < 0x100 then some (UInt8.ofNat v)
          else if v = CMD_WILDCARD then some (UInt8.ofNat W) else none))
        (some (UInt8.ofNat W))] ∧
      ∀ v ∈ sig, v < 0x100 → UInt8.ofNat v ≠ UInt8.ofNat W := by
  obtain ⟨b0, hb, hmem⟩ := homit
  obtain ⟨W, w1, w2, w3, w4⟩ := calculate_wildcard_omitted sig b0 hb hmem
  refine ⟨W, w1, w4, w3, w2, ?_, ?_⟩
  · simp [add_signature, w2]
  · intro v hv hvlt h
    have htv : (UInt8.ofNat v).toNat = (UInt8.ofNat W).toNat := by rw [h]
    have h1 : (UInt8.ofNat v).toNat = v % 256 := UInt8.toNat_ofNat v
    have h2 : (UInt8.ofNat W).toNat = W % 256 := UInt8.toNat_ofNat W
    have : v = W := by omega
    exact w3 (this ▸ hv)

/-- Witness for C6: the sub-pattern `?? 02 00` selects wildcard 0x01 (the
smallest omitted byte value). -/
theorem C6_wildcard_smallest_omitted_witness :
    ∃ W, W < 0x100 ∧ (∀ k, k < W → k ∈ [0x100, 2, 0]) ∧ W ∉ ([0x100, 2, 0] : List Nat) ∧
      calculate_wildcard [0x100, 2, 0] =
        (decide (CMD_WILDCARD ∈ ([0x100, 2, 0] : List Nat)), some (UInt8.ofNat W)) ∧
      add_signature [0x100, 2, 0] [] = [] ++ [BndmConfig.new
        (([0x100, 2, 0] : List Nat).filterMap (fun v => if v < 0x100 then some (UInt8.ofNat v)
          else if v = CMD_WILDCARD then some (UInt8.ofNat W) else none))
        (some (UInt8.ofNat W))] ∧
      ∀ v ∈ ([0x100, 2, 0] : List Nat), v < 0x100 → UInt8.ofNat v ≠ UInt8.ofNat W :=
  C6_wildcard_smallest_omitted _ _ (by decide) ⟨1, by decide, by decide⟩

set_option maxRecDepth 4000

/-- Witness for C5: a PSID buffer with header size 0x7C and zero bytes at
offsets 8 and 9 yields payload offset 0x7E. -/
theorem C5_get_data_offset_witness :
    (is_sid_file ([0x50, 0x53, 0x49, 0x44, 0, 0, 0x00, 0x7C, 0, 0] ++ List.replicate 0x76 0) = true)
      ∧ get_data_offset ([0x50, 0x53, 0x49, 0x44, 0, 0, 0x00, 0x7C, 0, 0] ++ List.replicate 0x76 0)
          = 0x7E := by
  refine ⟨by decide, ?_⟩
  have h := C5_get_data_offset
    ([0x50, 0x53, 0x49, 0x44, 0, 0, 0x00, 0x7C, 0, 0] ++ List.replicate 0x76 0) (by decide)
  simpa using h

/-! ### Lemmas about `find_signatures` -/

namespace PlayerId

theorem dedupByAux_subset {α : Type _} {p : α → α → Bool} :
    ∀ (kept : α) (l : List α) (a : α), a ∈ dedupByAux p kept l → a ∈ l := by
  intro kept l
  induction l generalizing kept with
  | nil => intro a h; exact absurd h (by simp [dedupByAux])
  | cons y ys ih =>
    intro a h
    simp only [dedupByAux] at h
    split at h
    · exact List.mem_cons_of_mem y (ih kept a h)
    · rcases List.mem_cons.mp h with h | h
      · exact h ▸ List.mem_cons_self y ys
      · exact List.mem_cons_of_mem y (ih y a h)

theorem dedupBy_subset {α : Type _} {p : α → α → Bool} :
    ∀ (l : List α) (a : α), a ∈ dedupBy p l → a ∈ l := by
  intro l a h
  cases l with
  | nil => exact absurd h (by simp [dedupBy])
  | cons x xs =>
    simp only [dedupBy] at h
    rcases List.mem_cons.mp h with h | h
    · exact h ▸ List.mem_cons_self x xs
    · exact List.mem_cons_of_mem x (dedupByAux_subset x xs a h)

theorem scanConfigs_sound (source : List UInt8) :
    ∀ (cfgs : List BndmConfig) (last_index : Nat) (acc res : List Nat),
      scanConfigs source cfgs last_index acc = some (some res) →
      ∃ tail, res = acc ++ tail ∧ ScanChain source last_index cfgs tail := by
  intro cfgs
  induction cfgs with
  | nil =>
    intro li acc res h
    simp only [scanConfigs, Option.some.injEq] at h
    exact ⟨[], by rw [h, List.append_nil], trivial⟩
  | cons c cs ih =>
    intro li acc res h
    simp only [scanConfigs] at h
    split at h
    · cases hfp : find_pattern (source.drop li) c with
      | none => rw [hfp] at h; simp at h
      | some o =>
        cases o with
        | none => rw [hfp] at h; simp at h
        | some r =>
          rw [hfp] at h
          obtain ⟨tail, ht1, ht2⟩ := ih _ _ _ h
          refine ⟨(li + r) :: tail, ?_, ?_⟩
          · rw [ht1]; simp
          · exact ⟨⟨r, hfp, rfl⟩, ht2⟩
    · simp at h

theorem ScanChain_head_le (source : List UInt8) (li : Nat) (cfgs : List BndmConfig)
    (x : Nat) (xs : List Nat) (h : ScanChain source li cfgs (x :: xs)) : li ≤ x := by
  cases cfgs with
  | nil => simp [ScanChain] at h
  | cons c cs =>
    simp only [ScanChain] at h
    obtain ⟨⟨r, _, hx⟩, _⟩ := h
    omega

theorem ScanChain_nonoverlap (source : List UInt8) :
    ∀ (cfgs : List BndmConfig) (li : Nat) (xs : List Nat), ScanChain source li cfgs xs →
      ∀ k, k + 1 < xs.length →
        xs.getD k 0 + (cfgs.getD k default).pattern.length ≤ xs.getD (k + 1) 0 := by
  intro cfgs
  induction cfgs with
  | nil =>
    intro li xs h k hk
    cases xs with
    | nil => simp at hk
    | cons x xs' => simp [ScanChain] at h
  | cons c cs ih =>
    intro li xs h k hk
    cases xs with
    | nil => simp at hk
    | cons x xs' =>
      simp only [ScanChain] at h
      obtain ⟨⟨r, hfp, hx⟩, hchain⟩ := h
      cases k with
      | zero =>
        cases xs' with
        | nil => simp at hk
        | cons y ys =>
          have := ScanChain_head_le source _ cs y ys hchain
          simpa using this
      | succ k' =>
        have := ih _ _ hchain k' (by simpa using hk)
        simpa using this

theorem find_signatures_aux_mem (source : List UInt8) (start_offset : Nat)
    (scan_for_multiple : Bool) :
    ∀ (sigs : List SignatureConfig) (ms : List SignatureMatch) (m : SignatureMatch),
      find_signatures_aux source start_offset scan_for_multiple sigs = some ms → m ∈ ms →
      ∃ sig, sig ∈ sigs ∧ sig.signature_name = m.signature_name ∧
        scanConfigs source sig.bndm_configs start_offset [] = some (some m.indexes) := by
  intro sigs
  induction sigs with
  | nil =>
    intro ms m h hm
    simp only [find_signatures_aux, Option.some.injEq] at h
    rw [← h] at hm
    simp at hm
  | cons sig rest ih =>
    intro ms m h hm
    simp only [find_signatures_aux] at h
    split at h
    · simp at h
    · obtain ⟨s, hs1, hs2, hs3⟩ := ih ms m h hm
      exact ⟨s, List.mem_cons_of_mem _ hs1, hs2, hs3⟩
    · next idxs heq =>
      split at h
      · split at h
        · simp at h
        · next ms' haux =>
          simp only [Option.some.injEq] at h
          rw [← h] at hm
          rcases List.mem_cons.mp hm with hm | hm
          · refine ⟨sig, List.mem_cons_self _ _, ?_, ?_⟩
            · rw [hm]
            · rw [hm]; exact heq
          · obtain ⟨s, hs1, hs2, hs3⟩ := ih ms' m haux hm
            exact ⟨s, List.mem_cons_of_mem _ hs1, hs2, hs3⟩
      · simp only [Option.some.injEq] at h
        rw [← h] at hm
        rcases List.mem_cons.mp hm with hm | hm
        · refine ⟨sig, List.mem_cons_self _ _, ?_, ?_⟩
          · rw [hm]
          · rw [hm]; exact heq
        · simp at hm

end PlayerId

/-- C4: every reported match of `find_signatures` comes from a signature of
the list, its offsets follow the scan chain (each sub-pattern found by
`find_pattern` at the running offset, reported at absolute position
`offset + relative index`), the first offset is at least the start offset,
and consecutive offsets never overlap. -/
theorem C4_match_offsets (source : List UInt8) (start_offset : Nat)
    (sigs : List SignatureConfig) (scan_for_multiple : Bool)
    (ms : List SignatureMatch) (m : SignatureMatch)
    (hfind : find_signatures source start_offset sigs scan_for_multiple = some ms)
    (hm : m ∈ ms) :
    ∃ sig, sig ∈ sigs ∧ sig.signature_name = m.signature_name ∧
      ScanChain source start_offset sig.bndm_configs m.indexes ∧
      (∀ x ∈ m.indexes.head?, start_offset ≤ x) ∧
      (∀ k, k + 1 < m.indexes.length →
        m.indexes.getD k 0 + (sig.bndm_configs.getD k default).pattern.length ≤
          m.indexes.getD (k + 1) 0) := by
  rw [find_signatures] at hfind
  cases haux : find_signatures_aux source start_offset scan_for_multiple sigs with
  | none => rw [haux] at hfind; simp at hfind
  | some ms0 =>
    rw [haux] at hfind
    simp only [Option.some.injEq] at hfind
    rw [← hfind] at hm
    have hm0 := dedupBy_subset ms0 m hm
    obtain ⟨sig, hs1, hs2, hs3⟩ :=
      find_signatures_aux_mem source start_offset scan_for_multiple sigs ms0 m haux hm0
    obtain ⟨tail, ht1, ht2⟩ := scanConfigs_sound source sig.bndm_configs start_offset [] _ hs3
    rw [List.nil_append] at ht1
    rw [← ht1] at ht2
    refine ⟨sig, hs1, hs2, ht2, ?_, ScanChain_nonoverlap source _ _ _ ht2⟩
    intro x hx
    cases hidx : m.indexes with
    | nil => rw [hidx] at hx; simp at hx
    | cons t ts =>
      rw [hidx] at hx ht2
      simp only [List.head?_cons, Option.mem_def, Option.some.injEq] at hx
      rw [← hx]
      exact ScanChain_head_le source _ _ t ts ht2

/-- Witness for C4 at a concrete scan: source `AA BB`, one signature with
sub-patterns `AA` and `BB`. -/
theorem C4_match_offsets_witness :
    (find_signatures [0xAA, 0xBB] 0
        [SignatureConfig.mk [BndmConfig.new [0xAA] none, BndmConfig.new [0xBB] none] "P"] true
      = some [SignatureMatch.mk "P" [0, 1]]) ∧
    (∃ sig,
      sig ∈ [SignatureConfig.mk [BndmConfig.new [0xAA] none, BndmConfig.new [0xBB] none] "P"] ∧
      sig.signature_name = (SignatureMatch.mk "P" [0, 1]).signature_name ∧
      ScanChain [0xAA, 0xBB] 0 sig.bndm_configs (SignatureMatch.mk "P" [0, 1]).indexes ∧
      (∀ x ∈ (SignatureMatch.mk "P" [0, 1]).indexes.head?, 0 ≤ x) ∧
      (∀ k, k + 1 < (SignatureMatch.mk "P" [0, 1]).indexes.length →
        (SignatureMatch.mk "P" [0, 1]).indexes.getD k 0 +
            (sig.bndm_configs.getD k default).pattern.length ≤
          (SignatureMatch.mk "P" [0, 1]).indexes.getD (k + 1) 0)) := by
  refine ⟨rfl, ?_⟩
  exact C4_match_offsets [0xAA, 0xBB] 0
    [SignatureConfig.mk [BndmConfig.new [0xAA] none, BndmConfig.new [0xBB] none] "P"] true
    [SignatureMatch.mk "P" [0, 1]]
    (SignatureMatch.mk "P" [0, 1]) rfl (List.mem_singleton.mpr rfl)

/-- C2 fails on the code: a 0x76-byte SID buffer whose header size equals the
buffer length and whose load-address bytes are zero gets data offset 0x78,
and scanning it with a non-empty signature panics (slice index out of range
in `find_signatures`) instead of returning an empty match list. -/
theorem C2_malformed_sid_panics :
    get_data_offset ([0x50, 0x53, 0x49, 0x44, 0, 0, 0x00, 0x76, 0, 0]
        ++ List.replicate 0x6C 0) = 0x78 ∧
    ([0x50, 0x53, 0x49, 0x44, 0, 0, 0x00, 0x76, 0, 0]
        ++ (List.replicate 0x6C 0 : List UInt8)).length = 0x76 ∧
    find_players_in_data "crafted.sid"
      ([0x50, 0x53, 0x49, 0x44, 0, 0, 0x00, 0x76, 0, 0] ++ List.replicate 0x6C 0)
      [{ bndm_configs := [BndmConfig.new [0x4C, 0x4C] none], signature_name := "Test" }]
      true = none := by
  refine ⟨by decide, by decide, ?_⟩
  rfl

/-- C10: a named signature whose value line has only tokens shorter than two
characters (here `"x y z"`) parses to an empty sub-pattern list, is still
pushed by `process_signature_line`, and `find_signatures` reports it as a
match with an empty offsets list on every source buffer and start offset. -/
theorem C10_empty_signature_matches (signature_name : String) (source : List UInt8)
    (start_offset : Nat) (scan_for_multiple : Bool) :
    (process_signature_value signature_name "x y z").bndm_configs = [] ∧
    process_signature_line none [] signature_name "x y z" =
      [process_signature_value signature_name "x y z"] ∧
    find_signatures source start_offset [process_signature_value signature_name "x y z"]
      scan_for_multiple =
      some [{ signature_name := signature_name, indexes := [] }] := by
  have h : (process_signature_value signature_name "x y z").bndm_configs = [] := rfl
  have hn : (process_signature_value signature_name "x y z").signature_name = signature_name :=
    rfl
  refine ⟨h, rfl, ?_⟩
  cases scan_for_multiple <;>
    simp [find_signatures, find_signatures_aux, h, hn, scanConfigs, dedupBy, dedupByAux]

/-! ### Bit-level characterisation of the BNDM mask table -/

namespace PlayerId

theorem ne_zero_iff_exists_testBit (n : Nat) : n ≠ 0 ↔ ∃ q, n.testBit q = true := by
  constructor
  · exact Nat.ne_zero_implies_bit_true
  · rintro ⟨q, hq⟩ rfl
    simp at hq

theorem land_one_shiftLeft_ne_zero (d n : Nat) :
    (d &&& (1 <<< n) ≠ 0) ↔ d.testBit n = true := by
  rw [Nat.one_shiftLeft, ne_zero_iff_exists_testBit]
  constructor
  · rintro ⟨q, hq⟩
    rw [Nat.testBit_land, Bool.and_eq_true, Nat.testBit_two_pow] at hq
    obtain ⟨h1, h2⟩ := hq
    have hnq : n = q := of_decide_eq_true h2
    rwa [hnq]
  · intro h
    exact ⟨n, by rw [Nat.testBit_land, h, Nat.testBit_two_pow]; simp⟩

theorem testBit_foldl_or (P : Nat → Prop) [DecidablePred P] (f : Nat → Nat) :
    ∀ (l : List Nat) (init q : Nat),
      ((l.foldl (fun m i => if P i then m ||| f i else m) init).testBit q) =
        (init.testBit q || l.any (fun i => decide (P i) && (f i).testBit q)) := by
  intro l
  induction l with
  | nil => intro init q; simp
  | cons x xs ih =>
    intro init q
    simp only [List.foldl_cons, List.any_cons, ih]
    by_cases hP : P x
    · simp [hP, Nat.testBit_lor, Bool.or_assoc]
    · simp [hP]

theorem calculate_wildcard_mask_testBit (p : List UInt8) (w : Option UInt8) (q : Nat) :
    (calculate_wildcard_mask p w).testBit q =
      (decide (q < min p.length 64) &&
        (w == some (p.getD (min p.length 64 - 1 - q) 0))) := by
  cases w with
  | none => simp [calculate_wildcard_mask]
  | some wv =>
    simp only [calculate_wildcard_mask, get_pattern_length_within_cpu_word, WORD_SIZE_IN_BITS]
    set len := min p.length 64 with hlendef
    by_cases hlen : len > 0
    · rw [if_pos hlen]
      rw [testBit_foldl_or (fun i => p.getD i 0 = wv) (fun i => (1 <<< (len - 1)) >>> i)]
      simp only [Nat.zero_testBit, Bool.false_or]
      rw [Bool.eq_iff_iff, List.any_eq_true]
      simp only [List.mem_range, Bool.and_eq_true, decide_eq_true_eq,
        Nat.testBit_shiftRight, Nat.one_shiftLeft,
        Nat.testBit_two_pow, Option.some.injEq, beq_iff_eq]
      constructor
      · rintro ⟨x, hx, hpx, hq⟩
        have hqlen : q < len := by omega
        have hxq : x = len - 1 - q := by omega
        refine ⟨hqlen, ?_⟩
        rw [← hxq, hpx]
      · rintro ⟨hq, hwv⟩
        refine ⟨len - 1 - q, by omega, ?_, by omega⟩
        rw [← hwv]
    · rw [if_neg hlen]
      simp only [Nat.zero_testBit]
      have : ¬ q < len := by omega
      simp [this]

end PlayerId

/-! ### Mask table characterisation (continued) -/

namespace PlayerId

theorem generate_masks_testBit (p : List UInt8) (dm : Nat) (c : UInt8) (q : Nat) :
    (generate_masks p dm c).testBit q =
      (dm.testBit q ||
        (decide (q < min p.length 64) && (p.getD (min p.length 64 - 1 - q) 0 == c))) := by
  simp only [generate_masks, get_pattern_length_within_cpu_word, WORD_SIZE_IN_BITS]
  set len := min p.length 64 with hlendef
  by_cases hlen : len > 0
  · rw [if_pos hlen]
    rw [testBit_foldl_or (fun i => p.getD i 0 = c) (fun i => (1 <<< (len - 1)) >>> i)]
    congr 1
    rw [Bool.eq_iff_iff, List.any_eq_true]
    simp only [List.mem_range, Bool.and_eq_true, decide_eq_true_eq,
      Nat.testBit_shiftRight, Nat.one_shiftLeft, Nat.testBit_two_pow, beq_iff_eq]
    constructor
    · rintro ⟨x, hx, hpx, hq⟩
      have hqlen : q < len := by omega
      have hxq : x = len - 1 - q := by omega
      refine ⟨hqlen, ?_⟩
      rw [← hxq, hpx]
    · rintro ⟨hq, hc⟩
      refine ⟨len - 1 - q, by omega, hc, by omega⟩
  · rw [if_neg hlen]
    have : ¬ q < len := by omega
    simp [this]

theorem masks_new_testBit (p : List UInt8) (w : Option UInt8) (c : UInt8) (q : Nat) :
    ((BndmConfig.new p w).masks c).testBit q =
      (decide (q < min p.length 64) &&
        byteMatches w (p.getD (min p.length 64 - 1 - q) 0) c) := by
  show (generate_masks p (calculate_wildcard_mask p w) c).testBit q = _
  rw [generate_masks_testBit, calculate_wildcard_mask_testBit, byteMatches]
  cases hq : decide (q < min p.length 64)
  · simp
  · simp only [Bool.true_and]
    rw [Bool.or_comm]
    congr 1
    rw [Bool.eq_iff_iff, beq_iff_eq, beq_iff_eq]
    exact eq_comm

/-- The mask characterisation in the form used by the loop proofs, with
`len = min p.length 64 - 1`. -/
theorem masks_new_testBit_len (p : List UInt8) (w : Option UInt8) (len : Nat)
    (hlen : len + 1 = min p.length 64) (c : UInt8) (q : Nat) :
    ((BndmConfig.new p w).masks c).testBit q =
      (decide (q ≤ len) && byteMatches w (p.getD (len - q) 0) c) := by
  have h1 : decide (q < len + 1) = decide (q ≤ len) := decide_eq_decide.mpr (by omega)
  have h2 : len + 1 - 1 - q = len - q := by omega
  rw [masks_new_testBit, ← hlen, h1, h2]

/-- Every mask entry is below `2 ^ 64`: its bits all sit below
`min p.length 64`. -/
theorem masks_new_lt (p : List UInt8) (w : Option UInt8) (c : UInt8) :
    (BndmConfig.new p w).masks c < 2 ^ 64 := by
  have h : (BndmConfig.new p w).masks c % 2 ^ 64 = (BndmConfig.new p w).masks c := by
    apply Nat.eq_of_testBit_eq
    intro q
    rw [Nat.testBit_mod_two_pow, masks_new_testBit]
    by_cases hq : q < 64
    · simp [hq]
    · have : ¬ q < min p.length 64 := by omega
      simp [this, hq]
  calc (BndmConfig.new p w).masks c = _ % 2 ^ 64 := h.symm
    _ < 2 ^ 64 := Nat.mod_lt _ (by norm_num)

end PlayerId


/-! ### The BNDM bit-state invariant: initialisation and transition -/

namespace PlayerId

theorem get?_eq_some_getD (s : List UInt8) (n : Nat) (h : n < s.length) :
    s.get? n = some (s.getD n 0) := by
  cases hx : s.get? n with
  | none =>
    rw [List.get?_eq_none] at hx
    omega
  | some b =>
    rw [List.getD_eq_get?, hx]
    rfl

theorem sub1Read_eq (s : List UInt8) (n : Nat) (h1 : 1 ≤ n) (h2 : n - 1 < s.length) :
    sub1Read s n = some (s.getD (n - 1) 0) := by
  rw [sub1Read, if_neg (by omega)]
  exact get?_eq_some_getD s (n - 1) h2

theorem PartMatch_mono_lo (p : List UInt8) (w : Option UInt8) (s : List UInt8)
    (i u lo lo' len : Nat) (hle : lo ≤ lo') (h : PartMatch p w s i u lo len) :
    PartMatch p w s i u lo' len :=
  fun m hm1 hm2 => h m (le_trans hle hm1) hm2

theorem PartMatch_shift (p : List UInt8) (w : Option UInt8) (s : List UInt8)
    (i u len : Nat) (h : PartMatch p w s (i + u) 0 0 len) :
    PartMatch p w s i u u len := by
  intro m hm1 hm2
  have h2 := h (m - u) (Nat.zero_le _) (by omega)
  have e : i + u + (m - u) = i + m := by omega
  rwa [e] at h2

theorem DInv_init (masks : UInt8 → Nat) (p : List UInt8) (w : Option UInt8) (s : List UInt8)
    (i len : Nat)
    (hmask : ∀ c q, (masks c).testBit q =
      (decide (q ≤ len) && byteMatches w (p.getD (len - q) 0) c)) :
    DInv p w s i len (len + 1) (masks (s.getD (i + len) 0)) := by
  simp only [DInv, PartMatch]
  intro q
  rw [hmask]
  simp only [Bool.and_eq_true, decide_eq_true_eq]
  constructor
  · rintro ⟨hq, hb⟩
    refine ⟨by omega, hq, ?_⟩
    intro m hm1 hm2
    have hm : m = len := by omega
    rw [hm]
    have e : len - (q - (len + 1 - (len + 1))) = len - q := by omega
    rw [e]
    exact hb
  · rintro ⟨h0, hq, hpm⟩
    refine ⟨hq, ?_⟩
    have := hpm len (by omega) (le_refl _)
    have e : len - (q - (len + 1 - (len + 1))) = len - q := by omega
    rwa [e] at this

theorem DInv_step (masks : UInt8 → Nat) (p : List UInt8) (w : Option UInt8) (s : List UInt8)
    (i len : Nat) (hlen63 : len ≤ 63)
    (hmask : ∀ c q, (masks c).testBit q =
      (decide (q ≤ len) && byteMatches w (p.getD (len - q) 0) c))
    (ja d : Nat) (hja2 : 2 ≤ ja) (hjale : ja ≤ len + 1)
    (hd : DInv p w s i len ja d) :
    DInv p w s i len (ja - 1)
      (((d <<< 1) % 2 ^ 64) &&& masks (s.getD (i + (ja - 1) - 1) 0)) := by
  simp only [DInv, PartMatch] at hd ⊢
  intro q
  rw [Nat.testBit_land, Nat.testBit_mod_two_pow, Nat.testBit_shiftLeft, hmask]
  simp only [Bool.and_eq_true, decide_eq_true_eq, ge_iff_le]
  constructor
  · rintro ⟨⟨hq64, h1q, hdq⟩, hqlen, hb⟩
    obtain ⟨ha, hb2, hpm⟩ := (hd (q - 1)).mp hdq
    refine ⟨by omega, hqlen, ?_⟩
    intro m hm1 hm2
    by_cases hm : m = ja - 1 - 1
    · subst hm
      have e : (ja - 1 - 1) - (q - (len + 1 - (ja - 1))) = len - q := by omega
      have e2 : i + (ja - 1) - 1 = i + (ja - 1 - 1) := by omega
      rw [e]
      rw [e2] at hb
      exact hb
    · have hres := hpm m (by omega) hm2
      have e : m - (q - 1 - (len + 1 - ja)) = m - (q - (len + 1 - (ja - 1))) := by omega
      rwa [e] at hres
  · rintro ⟨hge, hqlen, hpm⟩
    refine ⟨⟨by omega, by omega, ?_⟩, hqlen, ?_⟩
    · apply (hd (q - 1)).mpr
      refine ⟨by omega, by omega, ?_⟩
      intro m hm1 hm2
      have hres := hpm m (by omega) hm2
      have e : m - (q - 1 - (len + 1 - ja)) = m - (q - (len + 1 - (ja - 1))) := by omega
      rwa [← e] at hres
    · have hres := hpm (ja - 1 - 1) (le_refl _) (by omega)
      have e : (ja - 1 - 1) - (q - (len + 1 - (ja - 1))) = len - q := by omega
      have e2 : i + (ja - 1) - 1 = i + (ja - 1 - 1) := by omega
      rw [e] at hres
      rw [e2]
      exact hres

end PlayerId

/-! ### Correctness of the inner loop of `find_small_pattern` -/

namespace PlayerId

theorem find_small_loop_spec (masks : UInt8 → Nat) (p : List UInt8) (w : Option UInt8)
    (s : List UInt8) (i len : Nat) (hlen1 : 1 ≤ len) (hlen63 : len ≤ 63)
    (hmask : ∀ c q, (masks c).testBit q =
      (decide (q ≤ len) && byteMatches w (p.getD (len - q) 0) c))
    (hbound : i + len < s.length) :
    ∀ j, 1 ≤ j → j ≤ len → ∀ last d, 1 ≤ last →
      DInv p w s i len j d →
      (∀ u, 1 ≤ u → u < last → j ≤ u → ¬ PartMatch p w s i u u len) →
      ∃ b last', find_small_loop masks (1 <<< len) s i j last d = some (b, last') ∧
        (b = true ↔ PartMatch p w s i 0 0 len) ∧
        (b = false → 1 ≤ last' ∧
          ∀ u, 1 ≤ u → u < last' → ¬ PartMatch p w s i u u len) := by
  intro j
  induction j with
  | zero => intro h; exact absurd h (by omega)
  | succ j ih =>
    intro _ hjle last d hlast hd hpromise
    by_cases hd0 : d = 0
    · refine ⟨false, last, ?_, ?_, ?_⟩
      · rw [find_small_loop, if_pos hd0]
      · simp only [Bool.false_eq_true, false_iff]
        intro hfull
        have hbit := (hd (len + 1 - (j + 1))).mpr ?_
        · rw [hd0] at hbit; simp at hbit
        · refine ⟨le_refl _, by omega, ?_⟩
          rw [show (len + 1 - (j + 1)) - (len + 1 - (j + 1)) = 0 from by omega]
          exact PartMatch_mono_lo p w s i 0 0 (j + 1 - 1) len (Nat.zero_le _) hfull
      · intro _
        refine ⟨hlast, ?_⟩
        intro u hu1 hu2 hfull
        by_cases hju : j + 1 ≤ u
        · exact hpromise u hu1 hu2 hju hfull
        · have hbit := (hd (u + (len + 1 - (j + 1)))).mpr ?_
          · rw [hd0] at hbit; simp at hbit
          · refine ⟨by omega, by omega, ?_⟩
            rw [show u + (len + 1 - (j + 1)) - (len + 1 - (j + 1)) = u from by omega]
            exact PartMatch_mono_lo p w s i u u (j + 1 - 1) len (by omega) hfull
    · rw [find_small_loop, if_neg hd0]
      by_cases hdf : d &&& (1 <<< len) ≠ 0
      · rw [if_pos hdf]
        by_cases hj0 : j = 0
        · subst hj0
          rw [if_pos rfl]
          refine ⟨true, last, rfl, ?_, by intro h; exact absurd h (by decide)⟩
          simp only [true_iff]
          have hbit := (land_one_shiftLeft_ne_zero d len).mp hdf
          obtain ⟨h1, h2, hpm⟩ := (hd len).mp hbit
          rw [show len - (len + 1 - (0 + 1)) = 0 from by omega] at hpm
          exact hpm
        · rw [if_neg hj0]
          rw [sub1Read_eq s (i + j) (by omega) (by omega)]
          have hstep := DInv_step masks p w s i len hlen63 hmask (j + 1) d
            (by omega) (by omega) hd
          have hpromise' : ∀ u, 1 ≤ u → u < j → j ≤ u → ¬ PartMatch p w s i u u len := by
            intro u hu1 hu2 hju
            exact absurd hu2 (by omega)
          obtain ⟨b, last', heq, hiff, hfalse⟩ :=
            ih (by omega) (by omega) j _ (by omega) hstep hpromise'
          exact ⟨b, last', heq, hiff, hfalse⟩
      · rw [if_neg hdf]
        by_cases hj0 : j = 0
        · exfalso
          obtain ⟨q, hq⟩ := Nat.ne_zero_implies_bit_true hd0
          obtain ⟨h1, h2, _⟩ := (hd q).mp hq
          have hqlen : q = len := by omega
          subst hqlen
          exact hdf ((land_one_shiftLeft_ne_zero d q).mpr hq)
        · rw [sub1Read_eq s (i + j) (by omega) (by omega)]
          have hstep := DInv_step masks p w s i len hlen63 hmask (j + 1) d
            (by omega) (by omega) hd
          have hpromise' : ∀ u, 1 ≤ u → u < last → j ≤ u → ¬ PartMatch p w s i u u len := by
            intro u hu1 hu2 hju hfull
            by_cases hju1 : j + 1 ≤ u
            · exact hpromise u hu1 hu2 hju1 hfull
            · have huj : u = j := by omega
              subst huj
              apply hdf
              apply (land_one_shiftLeft_ne_zero d len).mpr
              apply (hd len).mpr
              refine ⟨by omega, le_refl _, ?_⟩
              rw [show len - (len + 1 - (u + 1)) = u from by omega]
              exact PartMatch_mono_lo p w s i u u (u + 1 - 1) len (by omega) hfull
          obtain ⟨b, last', heq, hiff, hfalse⟩ :=
            ih (by omega) (by omega) last _ hlast hstep hpromise'
          exact ⟨b, last', heq, hiff, hfalse⟩

end PlayerId

/-! ### The linear-scan reference search -/

namespace PlayerId

theorem firstMatchAux_eq_some (p : List UInt8) (w : Option UInt8) (s : List UInt8) (t : Nat) :
    ∀ fuel st, st ≤ t → t < st + fuel → matchesAtB p w s t = true →
      (∀ q, st ≤ q → q < t → matchesAtB p w s q = false) →
      firstMatchAux p w s fuel st = some t := by
  intro fuel
  induction fuel with
  | zero => intro st h1 h2 h3 h4; exact absurd h2 (by omega)
  | succ fuel ih =>
    intro st h1 h2 h3 h4
    rw [firstMatchAux]
    by_cases hst : st = t
    · subst hst
      rw [if_pos h3]
    · have hlt : matchesAtB p w s st = false := h4 st (le_refl _) (by omega)
      rw [if_neg (by simp [hlt])]
      exact ih (st + 1) (by omega) (by omega) h3 (fun q hq1 hq2 => h4 q (by omega) hq2)

theorem firstMatchAux_eq_none (p : List UInt8) (w : Option UInt8) (s : List UInt8) :
    ∀ fuel st, (∀ q, st ≤ q → q < st + fuel → matchesAtB p w s q = false) →
      firstMatchAux p w s fuel st = none := by
  intro fuel
  induction fuel with
  | zero => intro st _; rw [firstMatchAux]
  | succ fuel ih =>
    intro st h
    rw [firstMatchAux, if_neg (by simp [h st (le_refl _) (by omega)])]
    exact ih (st + 1) (fun q h1 h2 => h q (by omega) (by omega))

theorem firstMatchAux_sound (p : List UInt8) (w : Option UInt8) (s : List UInt8) :
    ∀ fuel st t, firstMatchAux p w s fuel st = some t →
      st ≤ t ∧ matchesAtB p w s t = true ∧
        ∀ q, st ≤ q → q < t → matchesAtB p w s q = false := by
  intro fuel
  induction fuel with
  | zero => intro st t h; rw [firstMatchAux] at h; exact absurd h (by simp)
  | succ fuel ih =>
    intro st t h
    rw [firstMatchAux] at h
    by_cases hm : matchesAtB p w s st = true
    · rw [if_pos hm] at h
      have hst : st = t := by simpa using h
      subst hst
      exact ⟨le_refl _, hm, fun q h1 h2 => absurd h1 (by omega)⟩
    · rw [if_neg hm] at h
      obtain ⟨ih1, ih2, ih3⟩ := ih (st + 1) t h
      refine ⟨by omega, ih2, ?_⟩
      intro q h1 h2
      by_cases hq : q = st
      · subst hq; simpa using hm
      · exact ih3 q (by omega) h2

theorem firstMatch_eq_some (p : List UInt8) (w : Option UInt8) (s : List UInt8) (t : Nat)
    (ht : t < s.length) (hm : matchesAtB p w s t = true)
    (hb : ∀ q, q < t → matchesAtB p w s q = false) :
    firstMatch p w s = some t :=
  firstMatchAux_eq_some p w s t s.length 0 (by omega) (by omega) hm
    (fun q _ hq2 => hb q hq2)

theorem firstMatch_eq_none (p : List UInt8) (w : Option UInt8) (s : List UInt8)
    (h : ∀ q, matchesAtB p w s q = false) :
    firstMatch p w s = none :=
  firstMatchAux_eq_none p w s s.length 0 (fun q _ _ => h q)

theorem firstMatch_sound (p : List UInt8) (w : Option UInt8) (s : List UInt8) (t : Nat)
    (h : firstMatch p w s = some t) :
    matchesAtB p w s t = true ∧ ∀ q, q < t → matchesAtB p w s q = false := by
  obtain ⟨_, h2, h3⟩ := firstMatchAux_sound p w s s.length 0 t h
  exact ⟨h2, fun q hq => h3 q (by omega) hq⟩

theorem matchesAtB_oob (p : List UInt8) (w : Option UInt8) (s : List UInt8) (i : Nat)
    (h : ¬ i + p.length ≤ s.length) : matchesAtB p w s i = false := by
  rw [matchesAtB]
  simp [h]

theorem matchesAtB_iff_window (p : List UInt8) (w : Option UInt8) (s : List UInt8) (i : Nat)
    (hp2 : 2 ≤ p.length) :
    matchesAtB p w s i = true ↔
      (i + p.length ≤ s.length ∧ PartMatch p w s i 0 0 (p.length - 1)) := by
  rw [matchesAtB]
  simp only [Bool.and_eq_true, decide_eq_true_eq, List.all_eq_true, List.mem_range]
  constructor
  · rintro ⟨hb, hall⟩
    refine ⟨hb, ?_⟩
    intro m _ hm2
    have h := hall m (by omega)
    rw [byteMatches, Nat.sub_zero]
    simp only [decide_eq_true hp2, Bool.true_and] at h
    exact h
  · rintro ⟨hb, hpm⟩
    refine ⟨hb, ?_⟩
    intro k hk
    have h := hpm k (Nat.zero_le _) (by omega)
    rw [byteMatches, Nat.sub_zero] at h
    simp only [decide_eq_true hp2, Bool.true_and]
    exact h

theorem matchesAtB_iff_large (p : List UInt8) (w : Option UInt8) (s : List UInt8) (i : Nat)
    (hp : 64 < p.length) :
    matchesAtB p w s i = true ↔
      (i + p.length ≤ s.length ∧ PartMatch p w s i 0 0 63 ∧ RemMatch p w s i) := by
  rw [matchesAtB]
  simp only [Bool.and_eq_true, decide_eq_true_eq, List.all_eq_true, List.mem_range]
  have hp2 : 2 ≤ p.length := by omega
  constructor
  · rintro ⟨hb, hall⟩
    refine ⟨hb, ?_, ?_⟩
    · intro m _ hm2
      have h := hall m (by omega)
      rw [byteMatches, Nat.sub_zero]
      simp only [decide_eq_true hp2, Bool.true_and] at h
      exact h
    · intro k hk1 hk2
      have h := hall k hk2
      rw [byteMatches]
      simp only [decide_eq_true hp2, Bool.true_and] at h
      exact h
  · rintro ⟨hb, hpm, hrem⟩
    refine ⟨hb, ?_⟩
    intro k hk
    by_cases hk64 : k ≤ 63
    · have h := hpm k (Nat.zero_le _) hk64
      rw [byteMatches, Nat.sub_zero] at h
      simp only [decide_eq_true hp2, Bool.true_and]
      exact h
    · have h := hrem k (by omega) hk
      rw [byteMatches] at h
      simp only [decide_eq_true hp2, Bool.true_and]
      exact h

end PlayerId

/-! ### Correctness of `find_small_pattern` -/

namespace PlayerId

theorem find_small_outer_spec (masks : UInt8 → Nat) (p : List UInt8) (w : Option UInt8)
    (s : List UInt8) (len endd : Nat)
    (hp2 : 2 ≤ p.length) (hps : p.length ≤ s.length) (hp64 : p.length ≤ 64)
    (hlen : len = p.length - 1) (hendd : endd = s.length - len)
    (hmask : ∀ c q, (masks c).testBit q =
      (decide (q ≤ len) && byteMatches w (p.getD (len - q) 0) c)) :
    ∀ fuel i, 0 < fuel → endd < i + fuel →
      (∀ q, q < i → matchesAtB p w s q = false) →
      find_small_outer masks (1 <<< len) len endd s fuel i = some (firstMatch p w s) := by
  intro fuel
  induction fuel with
  | zero => intro i h0 _ _; exact absurd h0 (by omega)
  | succ fuel ih =>
    intro i _ hif hinv
    rw [find_small_outer]
    by_cases hiend : i < endd
    · rw [if_pos hiend]
      have hb1 : i + len < s.length := by omega
      simp only [get?_eq_some_getD s (i + len) hb1,
        sub1Read_eq s (i + len) (by omega) (by omega)]
      have hinit := DInv_init masks p w s i len hmask
      have hstep := DInv_step masks p w s i len (by omega) hmask (len + 1)
        (masks (s.getD (i + len) 0)) (by omega) (by omega) hinit
      simp only [Nat.add_sub_cancel] at hstep
      obtain ⟨b, last', heq, hiff, hfalse⟩ :=
        find_small_loop_spec masks p w s i len (by omega) (by omega) hmask hb1
          len (by omega) (le_refl _) len _ (by omega) hstep
          (fun u _ hu2 hju => absurd hu2 (by omega))
      rw [heq]
      cases b with
      | true =>
        have hm : matchesAtB p w s i = true := by
          rw [matchesAtB_iff_window p w s i hp2]
          refine ⟨by omega, ?_⟩
          rw [← hlen]
          exact hiff.mp rfl
        rw [firstMatch_eq_some p w s i (by omega) hm hinv]
      | false =>
        obtain ⟨hlast'1, hnoshift⟩ := hfalse rfl
        apply ih (i + last') (by omega) (by omega)
        intro q hq
        by_cases hql : q < i
        · exact hinv q hql
        · by_cases hqi : q = i
          · subst hqi
            cases hmb : matchesAtB p w s q with
            | false => rfl
            | true =>
              exfalso
              have hw := (matchesAtB_iff_window p w s q hp2).mp hmb
              have hfull : PartMatch p w s q 0 0 len := by rw [hlen]; exact hw.2
              exact absurd (hiff.mpr hfull) (by decide)
          · cases hmb : matchesAtB p w s q with
            | false => rfl
            | true =>
              exfalso
              have hw := (matchesAtB_iff_window p w s q hp2).mp hmb
              have hfull : PartMatch p w s (i + (q - i)) 0 0 len := by
                rw [show i + (q - i) = q from by omega, hlen]
                exact hw.2
              have hsh := PartMatch_shift p w s i (q - i) len hfull
              exact hnoshift (q - i) (by omega) (by omega) hsh
    · rw [if_neg hiend]
      rw [firstMatch_eq_none p w s]
      intro q
      by_cases hql : q < i
      · exact hinv q hql
      · exact matchesAtB_oob p w s q (by omega)

theorem find_small_pattern_eq (p : List UInt8) (w : Option UInt8) (s : List UInt8)
    (hp2 : 2 ≤ p.length) (hp64 : p.length ≤ 64) (hps : p.length ≤ s.length) :
    find_small_pattern s (BndmConfig.new p w) = some (firstMatch p w s) := by
  show find_small_outer (BndmConfig.new p w).masks (1 <<< (p.length - 1)) (p.length - 1)
      (s.length - (p.length - 1)) s (s.length - (p.length - 1) + 1) 0
    = some (firstMatch p w s)
  exact find_small_outer_spec (BndmConfig.new p w).masks p w s (p.length - 1)
    (s.length - (p.length - 1)) hp2 hps hp64 rfl rfl
    (fun c q => masks_new_testBit_len p w (p.length - 1) (by omega) c q)
    (s.length - (p.length - 1) + 1) 0 (by omega) (by omega)
    (fun q hq => absurd hq (by omega))

end PlayerId

/-! ### Correctness of `find_remaining` -/

namespace PlayerId

theorem getD_drop (l : List UInt8) (n k : Nat) :
    (l.drop n).getD k 0 = l.getD (n + k) 0 := by
  rw [List.getD_eq_get?, List.getD_eq_get?, List.get?_drop]

theorem find_remaining_go_spec (src : List UInt8) (w : Option UInt8) :
    ∀ (pat : List UInt8) (idx : Nat), idx + pat.length ≤ src.length →
      find_remaining.find_remaining_go src w idx pat =
        some (decide (∀ k, k < pat.length →
          byteMatches w (pat.getD k 0) (src.getD (idx + k) 0) = true)) := by
  intro pat
  induction pat with
  | nil =>
    intro idx _
    rw [find_remaining.find_remaining_go]
    simp
  | cons pb rest ih =>
    intro idx hb
    rw [find_remaining.find_remaining_go]
    simp only [get?_eq_some_getD src idx (by simp at hb; omega)]
    have hhead : ∀ hcond : byteMatches w pb (src.getD idx 0) = true,
        ∀ hrec : find_remaining.find_remaining_go src w (idx + 1) rest =
          some (decide (∀ k, k < rest.length →
            byteMatches w (rest.getD k 0) (src.getD (idx + 1 + k) 0) = true)),
        (find_remaining.find_remaining_go src w (idx + 1) rest =
          some (decide (∀ k, k < (pb :: rest).length →
            byteMatches w ((pb :: rest).getD k 0) (src.getD (idx + k) 0) = true))) := by
      intro hcond hrec
      rw [hrec]
      congr 1
      rw [decide_eq_decide]
      constructor
      · intro h k hk
        cases k with
        | zero => simpa using hcond
        | succ k' =>
          have := h k' (by simp at hk ⊢; omega)
          simp only [List.getD_cons_succ]
          rw [show idx + (k' + 1) = idx + 1 + k' from by omega]
          exact this
      · intro h k hk
        have := h (k + 1) (by simp; omega)
        simp only [List.getD_cons_succ] at this
        rw [show idx + 1 + k = idx + (k + 1) from by omega]
        exact this
    have hfail : ∀ hcond : byteMatches w pb (src.getD idx 0) = false,
        (some false =
          some (decide (∀ k, k < (pb :: rest).length →
            byteMatches w ((pb :: rest).getD k 0) (src.getD (idx + k) 0) = true))) := by
      intro hcond
      congr 1
      have : ¬ (∀ k, k < (pb :: rest).length →
          byteMatches w ((pb :: rest).getD k 0) (src.getD (idx + k) 0) = true) := by
        intro h
        have := h 0 (by simp)
        simp only [List.getD_cons_zero, Nat.add_zero] at this
        rw [this] at hcond
        exact absurd hcond (by decide)
      exact (decide_eq_false this).symm
    have hreceq := ih (idx + 1) (by simp at hb; omega)
    cases w with
    | some wv =>
      show (if src.getD idx 0 = pb ∨ pb = wv
          then find_remaining.find_remaining_go src (some wv) (idx + 1) rest
          else some false) = _
      by_cases hcond : src.getD idx 0 = pb ∨ pb = wv
      · rw [if_pos hcond]
        apply hhead _ hreceq
        rw [byteMatches, Bool.or_eq_true]
        rcases hcond with h | h
        · exact Or.inl (beq_iff_eq.mpr h)
        · exact Or.inr (beq_iff_eq.mpr (by rw [h]))
      · rw [if_neg hcond]
        apply hfail
        rw [byteMatches]
        push_neg at hcond
        apply Bool.or_eq_false_iff.mpr
        refine ⟨beq_eq_false_iff_ne.mpr hcond.1, beq_eq_false_iff_ne.mpr ?_⟩
        intro hh
        exact hcond.2 (Option.some.inj hh).symm
    | none =>
      show (if src.getD idx 0 = pb
          then find_remaining.find_remaining_go src none (idx + 1) rest
          else some false) = _
      by_cases hcond : src.getD idx 0 = pb
      · rw [if_pos hcond]
        apply hhead _ hreceq
        rw [byteMatches, Bool.or_eq_true]
        exact Or.inl (beq_iff_eq.mpr hcond)
      · rw [if_neg hcond]
        apply hfail
        rw [byteMatches]
        apply Bool.or_eq_false_iff.mpr
        exact ⟨beq_eq_false_iff_ne.mpr hcond, by simp⟩

theorem find_remaining_spec_large (p : List UInt8) (w : Option UInt8) (s : List UInt8)
    (i : Nat) (hp : 64 < p.length) (hb : i + p.length ≤ s.length) :
    find_remaining (s.drop (i + 64)) (p.drop 64) w = some (decide (RemMatch p w s i)) := by
  rw [find_remaining]
  rw [find_remaining_go_spec (s.drop (i + 64)) w (p.drop 64) 0
    (by simp [List.length_drop]; omega)]
  congr 1
  rw [decide_eq_decide]
  simp only [RemMatch, List.length_drop]
  constructor
  · intro h k hk1 hk2
    have := h (k - 64) (by omega)
    rw [getD_drop, getD_drop] at this
    rw [show 64 + (k - 64) = k from by omega] at this
    rw [show i + 64 + (0 + (k - 64)) = i + k from by omega] at this
    exact this
  · intro h k hk
    rw [getD_drop, getD_drop]
    rw [show 64 + k = 64 + k from rfl]
    have := h (64 + k) (by omega) (by omega)
    rw [show i + 64 + (0 + k) = i + (64 + k) from by omega]
    exact this

end PlayerId

/-! ### Correctness of the inner loop of `find_large_pattern` -/

namespace PlayerId

theorem find_large_loop_zero_d (masks : UInt8 → Nat) (df : Nat) (s p : List UInt8)
    (w : Option UInt8) (i : Nat) :
    ∀ f j last, 1 ≤ f → find_large_loop masks df s p w i f j last 0 = some (false, last) := by
  intro f j last hf
  obtain ⟨f', rfl⟩ : ∃ f', f = f' + 1 := ⟨f - 1, by omega⟩
  cases j with
  | zero => rw [find_large_loop]; simp
  | succ j' => rw [find_large_loop]; simp

theorem find_large_loop_spec (masks : UInt8 → Nat) (p : List UInt8) (w : Option UInt8)
    (s : List UInt8) (i : Nat) (hp : 64 < p.length) (hbound : i + p.length ≤ s.length)
    (hmask : ∀ c q, (masks c).testBit q =
      (decide (q ≤ 63) && byteMatches w (p.getD (63 - q) 0) c)) :
    ∀ j, 1 ≤ j → j ≤ 63 → ∀ fuel last d, 1 ≤ last → j + 2 ≤ fuel →
      DInv p w s i 63 j d →
      (∀ u, 1 ≤ u → u < last → j ≤ u → ¬ PartMatch p w s i u u 63) →
      ∃ b last', find_large_loop masks (1 <<< 63) s p w i fuel j last d = some (b, last') ∧
        (b = true ↔ (PartMatch p w s i 0 0 63 ∧ RemMatch p w s i)) ∧
        (b = false → 1 ≤ last' ∧
          ∀ u, 1 ≤ u → u < last' → ¬ PartMatch p w s i u u 63) := by
  intro j
  induction j with
  | zero => intro h; exact absurd h (by omega)
  | succ j ih =>
    intro _ hjle fuel last d hlast hfuel hd hpromise
    obtain ⟨f, rfl⟩ : ∃ f, fuel = f + 1 := ⟨fuel - 1, by omega⟩
    by_cases hd0 : d = 0
    · refine ⟨false, last, ?_, ?_, ?_⟩
      · rw [find_large_loop, if_pos hd0]
      · simp only [Bool.false_eq_true, false_iff]
        rintro ⟨hfull, _⟩
        have hbit := (hd (63 + 1 - (j + 1))).mpr ?_
        · rw [hd0] at hbit; simp at hbit
        · refine ⟨le_refl _, by omega, ?_⟩
          rw [show (63 + 1 - (j + 1)) - (63 + 1 - (j + 1)) = 0 from by omega]
          exact PartMatch_mono_lo p w s i 0 0 (j + 1 - 1) 63 (Nat.zero_le _) hfull
      · intro _
        refine ⟨hlast, ?_⟩
        intro u hu1 hu2 hfull
        by_cases hju : j + 1 ≤ u
        · exact hpromise u hu1 hu2 hju hfull
        · have hbit := (hd (u + (63 + 1 - (j + 1)))).mpr ?_
          · rw [hd0] at hbit; simp at hbit
          · refine ⟨by omega, by omega, ?_⟩
            rw [show u + (63 + 1 - (j + 1)) - (63 + 1 - (j + 1)) = u from by omega]
            exact PartMatch_mono_lo p w s i u u (j + 1 - 1) 63 (by omega) hfull
    · rw [find_large_loop, if_neg hd0]
      by_cases hdf : d &&& (1 <<< 63) ≠ 0
      · rw [if_pos hdf]
        by_cases hj0 : j = 0
        · subst hj0
          rw [if_pos rfl]
          rw [if_pos (by simp only [WORD_SIZE_IN_BITS]; omega :
            i + WORD_SIZE_IN_BITS ≤ s.length ∧ WORD_SIZE_IN_BITS ≤ p.length)]
          simp only [WORD_SIZE_IN_BITS]
          rw [find_remaining_spec_large p w s i hp hbound]
          have hpref : PartMatch p w s i 0 0 63 := by
            have hbit := (land_one_shiftLeft_ne_zero d 63).mp hdf
            obtain ⟨h1, h2, hpm⟩ := (hd 63).mp hbit
            rw [show 63 - (63 + 1 - (0 + 1)) = 0 from by omega] at hpm
            exact hpm
          by_cases hrem : RemMatch p w s i
          · rw [decide_eq_true hrem]
            refine ⟨true, last, rfl, ?_, by intro h; exact absurd h (by decide)⟩
            simp only [true_iff]
            exact ⟨hpref, hrem⟩
          · simp only [decide_eq_false hrem, sub1Read_eq s (i + 1) (by omega) (by omega)]
            have hd'0 : ((d <<< 1) % 2 ^ 64) &&& masks (s.getD (i + 1 - 1) 0) = 0 := by
              apply Nat.eq_of_testBit_eq
              intro q
              rw [Nat.testBit_land, Nat.testBit_mod_two_pow, Nat.testBit_shiftLeft,
                Nat.zero_testBit]
              cases hdq : d.testBit (q - 1) with
              | false => simp [hdq]
              | true =>
                obtain ⟨h1, h2, _⟩ := (hd (q - 1)).mp hdq
                have hq64 : ¬ q < 64 := by omega
                simp [hq64]
            rw [hd'0, find_large_loop_zero_d masks (1 <<< 63) s p w i f 1 1 (by omega)]
            refine ⟨false, 1, rfl, ?_, ?_⟩
            · simp only [Bool.false_eq_true, false_iff]
              rintro ⟨_, hr⟩
              exact hrem hr
            · intro _
              exact ⟨le_refl _, fun u hu1 hu2 => absurd hu2 (by omega)⟩
        · rw [if_neg hj0]
          rw [sub1Read_eq s (i + j) (by omega) (by omega)]
          have hstep := DInv_step masks p w s i 63 (by omega) hmask (j + 1) d
            (by omega) (by omega) hd
          have hpromise' : ∀ u, 1 ≤ u → u < j → j ≤ u → ¬ PartMatch p w s i u u 63 := by
            intro u hu1 hu2 hju
            exact absurd hu2 (by omega)
          obtain ⟨b, last', heq, hiff, hfalse⟩ :=
            ih (by omega) (by omega) f j _ (by omega) (by omega) hstep hpromise'
          exact ⟨b, last', heq, hiff, hfalse⟩
      · rw [if_neg hdf]
        by_cases hj0 : j = 0
        · exfalso
          obtain ⟨q, hq⟩ := Nat.ne_zero_implies_bit_true hd0
          obtain ⟨h1, h2, _⟩ := (hd q).mp hq
          have hqlen : q = 63 := by omega
          rw [hqlen] at hq
          exact hdf ((land_one_shiftLeft_ne_zero d 63).mpr hq)
        · rw [sub1Read_eq s (i + j) (by omega) (by omega)]
          have hstep := DInv_step masks p w s i 63 (by omega) hmask (j + 1) d
            (by omega) (by omega) hd
          have hpromise' : ∀ u, 1 ≤ u → u < last → j ≤ u → ¬ PartMatch p w s i u u 63 := by
            intro u hu1 hu2 hju hfull
            by_cases hju1 : j + 1 ≤ u
            · exact hpromise u hu1 hu2 hju1 hfull
            · have huj : u = j := by omega
              subst huj
              apply hdf
              apply (land_one_shiftLeft_ne_zero d 63).mpr
              apply (hd 63).mpr
              refine ⟨by omega, le_refl _, ?_⟩
              rw [show 63 - (63 + 1 - (u + 1)) = u from by omega]
              exact PartMatch_mono_lo p w s i u u (u + 1 - 1) 63 (by omega) hfull
          obtain ⟨b, last', heq, hiff, hfalse⟩ :=
            ih (by omega) (by omega) f last _ hlast (by omega) hstep hpromise'
          exact ⟨b, last', heq, hiff, hfalse⟩

end PlayerId

/-! ### Correctness of `find_large_pattern` and `find_pattern` -/

namespace PlayerId

theorem BndmConfig.new_pattern (p : List UInt8) (w : Option UInt8) :
    (BndmConfig.new p w).pattern = p := rfl

theorem find_large_outer_spec (masks : UInt8 → Nat) (p : List UInt8) (w : Option UInt8)
    (s : List UInt8) (endd : Nat)
    (hp : 64 < p.length) (hps : p.length ≤ s.length)
    (hendd : endd = s.length - (p.length - 1))
    (hmask : ∀ c q, (masks c).testBit q =
      (decide (q ≤ 63) && byteMatches w (p.getD (63 - q) 0) c)) :
    ∀ fuel i, 0 < fuel → endd < i + fuel →
      (∀ q, q < i → matchesAtB p w s q = false) →
      find_large_outer masks (1 <<< 63) 63 endd s p w fuel i = some (firstMatch p w s) := by
  intro fuel
  induction fuel with
  | zero => intro i h0 _ _; exact absurd h0 (by omega)
  | succ fuel ih =>
    intro i _ hif hinv
    rw [find_large_outer]
    by_cases hiend : i < endd
    · rw [if_pos hiend]
      have hbnd : i + p.length ≤ s.length := by omega
      have hb1 : i + 63 < s.length := by omega
      simp only [get?_eq_some_getD s (i + 63) hb1,
        sub1Read_eq s (i + 63) (by omega) (by omega)]
      have hinit := DInv_init masks p w s i 63 hmask
      have hstep := DInv_step masks p w s i 63 (by omega) hmask (63 + 1)
        (masks (s.getD (i + 63) 0)) (by omega) (by omega) hinit
      simp only [Nat.add_sub_cancel] at hstep
      obtain ⟨b, last', heq, hiff, hfalse⟩ :=
        find_large_loop_spec masks p w s i hp hbnd hmask
          63 (by omega) (le_refl _) (2 * WORD_SIZE_IN_BITS + 4) 63 _ (by omega)
          (by simp only [WORD_SIZE_IN_BITS]; omega) hstep
          (fun u _ hu2 hju => absurd hu2 (by omega))
      rw [heq]
      cases b with
      | true =>
        have hm : matchesAtB p w s i = true := by
          rw [matchesAtB_iff_large p w s i hp]
          exact ⟨hbnd, (hiff.mp rfl).1, (hiff.mp rfl).2⟩
        rw [firstMatch_eq_some p w s i (by omega) hm hinv]
      | false =>
        obtain ⟨hlast'1, hnoshift⟩ := hfalse rfl
        apply ih (i + last') (by omega) (by omega)
        intro q hq
        by_cases hql : q < i
        · exact hinv q hql
        · by_cases hqi : q = i
          · subst hqi
            cases hmb : matchesAtB p w s q with
            | false => rfl
            | true =>
              exfalso
              have hw := (matchesAtB_iff_large p w s q hp).mp hmb
              exact absurd (hiff.mpr ⟨hw.2.1, hw.2.2⟩) (by decide)
          · cases hmb : matchesAtB p w s q with
            | false => rfl
            | true =>
              exfalso
              have hw := (matchesAtB_iff_large p w s q hp).mp hmb
              have hfull : PartMatch p w s (i + (q - i)) 0 0 63 := by
                rw [show i + (q - i) = q from by omega]
                exact hw.2.1
              have hsh := PartMatch_shift p w s i (q - i) 63 hfull
              exact hnoshift (q - i) (by omega) (by omega) hsh
    · rw [if_neg hiend]
      rw [firstMatch_eq_none p w s]
      intro q
      by_cases hql : q < i
      · exact hinv q hql
      · exact matchesAtB_oob p w s q (by omega)

theorem find_large_pattern_eq (p : List UInt8) (w : Option UInt8) (s : List UInt8)
    (hp : 64 < p.length) (hps : p.length ≤ s.length) :
    find_large_pattern s (BndmConfig.new p w) = some (firstMatch p w s) := by
  show find_large_outer (BndmConfig.new p w).masks (1 <<< (WORD_SIZE_IN_BITS - 1))
      (WORD_SIZE_IN_BITS - 1) (s.length - ((BndmConfig.new p w).pattern.length - 1)) s
      (BndmConfig.new p w).pattern (BndmConfig.new p w).wildcard
      (s.length - ((BndmConfig.new p w).pattern.length - 1) + 1) 0
    = some (firstMatch p w s)
  have h63 : WORD_SIZE_IN_BITS - 1 = 63 := by simp [WORD_SIZE_IN_BITS]
  rw [h63, BndmConfig.new_pattern]
  show find_large_outer (BndmConfig.new p w).masks (1 <<< 63) 63
      (s.length - (p.length - 1)) s p w (s.length - (p.length - 1) + 1) 0
    = some (firstMatch p w s)
  exact find_large_outer_spec (BndmConfig.new p w).masks p w s (s.length - (p.length - 1))
    hp hps rfl
    (fun c q => masks_new_testBit_len p w 63 (by omega) c q)
    (s.length - (p.length - 1) + 1) 0 (by omega) (by omega)
    (fun q hq => absurd hq (by omega))

theorem findIdx?_go_spec (f : UInt8 → Bool) :
    ∀ (l : List UInt8) (st t : Nat), l.findIdx? f st = some t →
      st ≤ t ∧ t - st < l.length ∧ f (l.getD (t - st) 0) = true ∧
        ∀ r, r < t - st → f (l.getD r 0) = false := by
  intro l
  induction l with
  | nil => intro st t h; simp at h
  | cons x xs ih =>
    intro st t h
    rw [List.findIdx?_cons] at h
    by_cases hf : f x = true
    · rw [if_pos hf] at h
      have hst : st = t := by simpa using h
      rw [← hst, Nat.sub_self]
      exact ⟨by omega, by simp, by simpa using hf, fun r hr => absurd hr (by omega)⟩
    · rw [if_neg hf] at h
      obtain ⟨h1, h2, h3, h4⟩ := ih (st + 1) t h
      have hfx : f x = false := by simpa using hf
      refine ⟨by omega, by simp; omega, ?_, ?_⟩
      · have e : t - st = (t - (st + 1)) + 1 := by omega
        rw [e, List.getD_cons_succ]
        exact h3
      · intro r hr
        cases r with
        | zero => simpa using hfx
        | succ r' =>
          rw [List.getD_cons_succ]
          exact h4 r' (by omega)

theorem find_pattern_len1_eq (p : List UInt8) (w : Option UInt8) (s : List UInt8)
    (hp : p.length = 1) :
    List.findIdx? (fun x => x == p.getD 0 0) s = firstMatch p w s := by
  have hchar : ∀ q, matchesAtB p w s q =
      (decide (q + 1 ≤ s.length) && (s.getD q 0 == p.getD 0 0)) := by
    intro q
    rw [matchesAtB, hp]
    simp [show List.range 1 = [0] from rfl]
  cases hfi : List.findIdx? (fun x => x == p.getD 0 0) s with
  | none =>
    rw [List.findIdx?_eq_none_iff] at hfi
    refine (firstMatch_eq_none p w s ?_).symm
    intro q
    rw [hchar q]
    by_cases hq : q < s.length
    · have hmem : s.getD q 0 ∈ s := List.get?_mem (get?_eq_some_getD s q hq)
      rw [hfi (s.getD q 0) hmem, Bool.and_false]
    · rw [decide_eq_false (by omega), Bool.false_and]
  | some t =>
    obtain ⟨h1, h2, h3, h4⟩ := findIdx?_go_spec _ s 0 t hfi
    rw [Nat.sub_zero] at h2 h3 h4
    refine (firstMatch_eq_some p w s t h2 ?_ ?_).symm
    · rw [hchar t, decide_eq_true (by omega), h3, Bool.true_and]
    · intro q hq
      rw [hchar q, h4 q hq, Bool.and_false]

theorem find_pattern_eq (p : List UInt8) (w : Option UInt8) (s : List UInt8) :
    find_pattern s (BndmConfig.new p w) =
      some (if p.length = 0 then none else firstMatch p w s) := by
  rw [find_pattern, BndmConfig.new_pattern]
  by_cases h0 : p.length = 0
  · rw [if_pos h0, if_pos h0]
  · rw [if_neg h0, if_neg h0]
    by_cases h1 : p.length = 1
    · rw [if_pos h1]
      exact congrArg some (find_pattern_len1_eq p w s h1)
    · rw [if_neg h1]
      by_cases hbig : p.length > s.length
      · rw [if_pos hbig]
        refine congrArg some (firstMatch_eq_none p w s ?_).symm
        intro q
        exact matchesAtB_oob p w s q (by omega)
      · rw [if_neg hbig]
        by_cases h64 : p.length > WORD_SIZE_IN_BITS
        · rw [if_pos h64]
          simp only [WORD_SIZE_IN_BITS] at h64
          exact find_large_pattern_eq p w s h64 (by omega)
        · rw [if_neg h64]
          simp only [WORD_SIZE_IN_BITS] at h64
          exact find_small_pattern_eq p w s (by omega) (by omega) (by omega)

end PlayerId

/-! ### Auxiliary facts for the find_pattern claims -/

namespace PlayerId

theorem matchesAtB_bound (p : List UInt8) (w : Option UInt8) (s : List UInt8) (i : Nat)
    (h : matchesAtB p w s i = true) : i + p.length ≤ s.length := by
  rw [matchesAtB] at h
  simp only [Bool.and_eq_true, decide_eq_true_eq] at h
  exact h.1

theorem getD_append_plus (l l' : List UInt8) (n : Nat) :
    (l ++ l').getD (l.length + n) 0 = l'.getD n 0 := by
  rw [List.getD_eq_get?, List.getD_eq_get?, List.get?_append_right (by omega)]
  rw [show l.length + n - l.length = n from by omega]

theorem matchesAtB_append_shift (p : List UInt8) (w : Option UInt8) (pre s : List UInt8)
    (q : Nat) :
    matchesAtB p w (pre ++ s) (pre.length + q) = matchesAtB p w s q := by
  rw [matchesAtB, matchesAtB]
  congr 1
  · rw [decide_eq_decide, List.length_append]
    omega
  · rw [Bool.eq_iff_iff, List.all_eq_true, List.all_eq_true]
    constructor
    · intro h k hk
      have h2 := h k hk
      rw [show pre.length + q + k = pre.length + (q + k) from by omega,
        getD_append_plus] at h2
      exact h2
    · intro h k hk
      have h2 := h k hk
      rw [show pre.length + q + k = pre.length + (q + k) from by omega,
        getD_append_plus]
      exact h2

theorem firstMatch_exists_of_match (p : List UInt8) (w : Option UInt8) (s : List UInt8)
    (i : Nat) (hi : matchesAtB p w s i = true) (hp : 1 ≤ p.length) :
    ∃ t, firstMatch p w s = some t := by
  have hex : ∃ j, matchesAtB p w s j = true := ⟨i, hi⟩
  refine ⟨Nat.find hex, ?_⟩
  have hmt := Nat.find_spec hex
  have hbt := matchesAtB_bound p w s (Nat.find hex) hmt
  apply firstMatch_eq_some p w s (Nat.find hex) (by omega) hmt
  intro q hq
  have := Nat.find_min hex hq
  simpa using this

end PlayerId

/-! Claim theorems for the BNDM search. -/

/-- C1 counterexample: with pattern `[0x02]`, wildcard `0x02` and source
`[0x01]`, the smallest index satisfying the claim's match relation is 0 (the
wildcard makes position 0 match), yet `find_pattern` returns `None`: the
length-1 branch scans for the literal byte and ignores the wildcard. -/
theorem C1_counterexample :
    claimFirstMatch [0x02] (some 0x02) [0x01] = some 0 ∧
    find_pattern [0x01] (BndmConfig.new [0x02] (some 0x02)) = some none := by
  constructor
  · decide
  · decide

/-- C1 (amended): for every pattern of length `N` with `1 ≤ N ≤ source
length`, `find_pattern` returns the smallest index at which the pattern
matches under the code's match relation — a pattern byte matches a source
byte when they are equal, or when the pattern byte equals the wildcard and
`N ≥ 2` (the length-1 branch compares exactly) — and `None` when no index
matches. -/
theorem C1_find_pattern_first_match (p : List UInt8) (w : Option UInt8) (s : List UInt8)
    (hp : 1 ≤ p.length) (hps : p.length ≤ s.length) :
    find_pattern s (BndmConfig.new p w) = some (firstMatch p w s) ∧
    (∀ i, firstMatch p w s = some i ↔
      (matchesAtB p w s i = true ∧ ∀ j, j < i → matchesAtB p w s j = false)) ∧
    (firstMatch p w s = none ↔ ∀ i, matchesAtB p w s i = false) := by
  refine ⟨?_, ?_, ?_⟩
  · rw [find_pattern_eq, if_neg (by omega)]
  · intro i
    constructor
    · exact firstMatch_sound p w s i
    · rintro ⟨h1, h2⟩
      have hb := matchesAtB_bound p w s i h1
      exact firstMatch_eq_some p w s i (by omega) h1 h2
  · constructor
    · intro hnone i
      cases hmb : matchesAtB p w s i with
      | false => rfl
      | true =>
        obtain ⟨t, ht⟩ := firstMatch_exists_of_match p w s i hmb hp
        rw [hnone] at ht
        exact absurd ht (by simp)
    · exact firstMatch_eq_none p w s

/-- Witness for C1 (amended) at pattern `AB CD`, source `00 AB CD`. -/
theorem C1_find_pattern_first_match_witness :
    ((find_pattern [0x00, 0xAB, 0xCD] (BndmConfig.new [0xAB, 0xCD] none) =
        some (firstMatch [0xAB, 0xCD] none [0x00, 0xAB, 0xCD])) ∧
      (∀ i, firstMatch [0xAB, 0xCD] none [0x00, 0xAB, 0xCD] = some i ↔
        (matchesAtB [0xAB, 0xCD] none [0x00, 0xAB, 0xCD] i = true ∧
          ∀ j, j < i → matchesAtB [0xAB, 0xCD] none [0x00, 0xAB, 0xCD] j = false)) ∧
      (firstMatch [0xAB, 0xCD] none [0x00, 0xAB, 0xCD] = none ↔
        ∀ i, matchesAtB [0xAB, 0xCD] none [0x00, 0xAB, 0xCD] i = false)) ∧
    firstMatch [0xAB, 0xCD] none [0x00, 0xAB, 0xCD] = some 1 :=
  ⟨C1_find_pattern_first_match [0xAB, 0xCD] none [0x00, 0xAB, 0xCD] (by decide) (by decide),
   by decide⟩

/-- C7 counterexample: a one-byte pattern equal to the wildcard does not
match trivially at position 0 — on source `[0x05]` with pattern `[0x07]` and
wildcard `0x07`, `find_pattern` returns `None`, not `Some 0`. -/
theorem C7_counterexample :
    (BndmConfig.new [0x07] (some 0x07)).wildcard = some 0x07 ∧
    ([0x05] : List UInt8) ≠ [] ∧
    find_pattern [0x05] (BndmConfig.new [0x07] (some 0x07)) = some none := by
  refine ⟨rfl, by decide, by decide⟩

/-- C7 (amended): for a length-1 pattern whose byte equals the wildcard,
`find_pattern` performs the linear scan for the literal byte (the wildcard
does not bypass the scan); it returns `Some 0` exactly on sources whose
first byte equals the pattern byte. -/
theorem C7_len1_wildcard_scan (b : UInt8) (s : List UInt8) :
    find_pattern s (BndmConfig.new [b] (some b)) =
      some (List.findIdx? (fun x => x == b) s) ∧
    (s ≠ [] → s.getD 0 0 = b →
      find_pattern s (BndmConfig.new [b] (some b)) = some (some 0)) := by
  constructor
  · rfl
  · intro hne h0
    cases s with
    | nil => exact absurd rfl hne
    | cons x xs =>
      show some (List.findIdx? (fun x => x == b) (x :: xs)) = some (some 0)
      rw [List.findIdx?_cons, if_pos]
      simp only [List.getD_cons_zero] at h0
      exact beq_iff_eq.mpr h0

/-- Witness for C7 (amended) at pattern `[0x03]`, wildcard `0x03`, source
`03 09`. -/
theorem C7_len1_wildcard_scan_witness :
    find_pattern [0x03, 0x09] (BndmConfig.new [0x03] (some 0x03)) =
      some (List.findIdx? (fun x => x == (0x03 : UInt8)) [0x03, 0x09]) ∧
    find_pattern [0x03, 0x09] (BndmConfig.new [0x03] (some 0x03)) = some (some 0) :=
  ⟨(C7_len1_wildcard_scan 0x03 [0x03, 0x09]).1,
   (C7_len1_wildcard_scan 0x03 [0x03, 0x09]).2 (by decide) (by decide)⟩

/-- C8: `find_pattern` is total — for every source, pattern and wildcard
configuration it terminates with a result and never panics (no out-of-bounds
access, no `usize` underflow: the embedded code models every such access as
`none`, and the result is always `some`). -/
theorem C8_find_pattern_total (p : List UInt8) (w : Option UInt8) (s : List UInt8) :
    ∃ r, find_pattern s (BndmConfig.new p w) = some r :=
  ⟨_, find_pattern_eq p w s⟩

/-- C9 counterexample: with pattern `01 02` (no wildcard), prefix `[0x01]`
and source `02 01 02`, the prefix contains no occurrence of the pattern,
`find_pattern` finds the pattern at index 1 of the source, but on the
concatenation it finds an occurrence spanning the boundary at index 0, not
at index `1 + 1`. -/
theorem C9_counterexample :
    ((List.range 1).all
      (fun j => !(matchesAtB [0x01, 0x02] none [0x01] j)) = true) ∧
    find_pattern [0x02, 0x01, 0x02] (BndmConfig.new [0x01, 0x02] none) = some (some 1) ∧
    find_pattern ([0x01] ++ [0x02, 0x01, 0x02]) (BndmConfig.new [0x01, 0x02] none)
      = some (some 0) ∧
    ¬ (find_pattern ([0x01] ++ [0x02, 0x01, 0x02]) (BndmConfig.new [0x01, 0x02] none)
        = some (some (1 + 1))) := by
  decide

/-- C9 (amended): matching is position-shift-preserving under concatenation
when no occurrence of the pattern in `pre ++ s` starts inside the prefix:
`find_pattern` returns `Some i` on `s` exactly when it returns
`Some (pre.length + i)` on `pre ++ s`. -/
theorem C9_shift_invariance (p : List UInt8) (w : Option UInt8) (pre s : List UInt8)
    (i : Nat)
    (hno : ∀ j, j < pre.length → matchesAtB p w (pre ++ s) j = false) :
    find_pattern s (BndmConfig.new p w) = some (some i) ↔
      find_pattern (pre ++ s) (BndmConfig.new p w) = some (some (pre.length + i)) := by
  rw [find_pattern_eq, find_pattern_eq]
  by_cases h0 : p.length = 0
  · rw [if_pos h0, if_pos h0]
    simp
  · rw [if_neg h0, if_neg h0]
    simp only [Option.some.injEq]
    constructor
    · intro h
      obtain ⟨hm, hb⟩ := firstMatch_sound p w s i h
      have hbound := matchesAtB_bound p w s i hm
      apply firstMatch_eq_some p w (pre ++ s) (pre.length + i)
        (by rw [List.length_append]; omega)
        (by rw [matchesAtB_append_shift]; exact hm)
      intro j hj
      by_cases hjp : j < pre.length
      · exact hno j hjp
      · rw [show j = pre.length + (j - pre.length) from by omega, matchesAtB_append_shift]
        exact hb (j - pre.length) (by omega)
    · intro h
      obtain ⟨hm, hb⟩ := firstMatch_sound p w (pre ++ s) (pre.length + i) h
      rw [matchesAtB_append_shift] at hm
      have hbound := matchesAtB_bound p w s i hm
      apply firstMatch_eq_some p w s i (by omega) hm
      intro q hq
      have := hb (pre.length + q) (by omega)
      rwa [matchesAtB_append_shift] at this

/-- Witness for C9 (amended) at pattern `01 02`, prefix `[0x09]`, source
`01 02`, index 0. -/
theorem C9_shift_invariance_witness :
    (find_pattern [0x01, 0x02] (BndmConfig.new [0x01, 0x02] none) = some (some 0) ↔
      find_pattern ([0x09] ++ [0x01, 0x02]) (BndmConfig.new [0x01, 0x02] none)
        = some (some (([0x09] : List UInt8).length + 0))) ∧
    find_pattern [0x01, 0x02] (BndmConfig.new [0x01, 0x02] none) = some (some 0) :=
  ⟨C9_shift_invariance [0x01, 0x02] none [0x09] [0x01, 0x02] 0 (by decide), by decide⟩
